import Mathlib

/-!
Shallow embedding of `euro2016-staff-assignment/staff_calc.py`: the
calendar builder, the availability engine, the greedy assignment engine,
the side-event reporter and the consistency verifier, together with
theorems settling the specification claims C1-C10.

Modelling conventions:
* Time is measured in microseconds since 2016-07-15 00:00 (Python
  `datetime`/`timedelta` arithmetic is exact at microsecond resolution,
  and `//` on a `timedelta` is floor division, modelled by `Int.fdiv`).
* Python's stable `list.sort(key=...)` (ascending, or descending via
  `reverse=True`; both keep the relative order of ties) is modelled by
  the stable `List.insertionSort` with the corresponding key relation.
* Fallible operations (`exit(1)`, `KeyError`, `IndexError` on
  `avstaff[0]`, `ValueError` on `list.remove`, reading a `datetime`
  attribute that was never set) are modelled with `Except String`.
-/

namespace StaffCalc

/-- Microseconds per minute. -/
def usPerMin : Int := 60000000

/-- Microseconds per day. -/
def usPerDay : Int := 1440 * usPerMin

/-- One hour, the streak cap of the carryover rule. -/
def hourUs : Int := 60 * usPerMin

/-- Fifteen minutes, the practice-buffer window. -/
def bufferUs : Int := 15 * usPerMin

/-- One minute, the overlap tolerance of the parallel-conflict pass. -/
def tolUs : Int := usPerMin

/-- A scheduled group: the tuple `(e.event, e.round, i+1, e.day, start, end)`
built at lines 85-92 of `staff_calc.py`.  The field `stop` is the tuple's
end time (`end` is a Lean keyword). -/
structure Group where
  event : String
  round : Int
  gidx : Nat
  day : String
  start : Int
  stop : Int
deriving DecidableEq, Repr

/-- A staff record (`class Staff`, lines 28-54): day flags and running tier
as the raw integers of the input file, and the four comma-separated event
lists already split. -/
structure Staff where
  name : String
  fri : Int
  sat : Int
  sun : Int
  run : Int
  scr1 : List String
  scr2 : List String
  prac : List String
  proc : List String
deriving DecidableEq, Repr

/-- `main_events` (line 56). -/
def main_events : List String :=
  ["333", "444", "555", "222", "333bf", "333oh", "333ft", "minx", "pyram",
   "sq1", "clock", "skewb", "666", "777"]

/-- `side_events` (line 57). -/
def side_events : List String := ["333fm", "444bf", "555bf", "333mbf"]

/-- `scramblers_main = 3` (line 58). -/
def scramblers_main : Nat := 3

/-- `runners_main = 3` (line 59). -/
def runners_main : Nat := 3

/-- `judges_main = {1: 10, 2: 20, 3: 28}` (line 60); `none` models the
`KeyError` raised by a lookup at any other heat count. -/
def judges_main : Nat → Option Nat
  | 1 => some 10
  | 2 => some 20
  | 3 => some 28
  | _ => none

/-- Raw event record (`Event.__init__`, lines 6-22): the day name, the
`HHMM` strings of start and end split into hour and minute
(`int(start[:2])`, `int(start[2:])`), event id, round, group count and
area count. -/
structure Event where
  index : Nat
  day : String
  startH : Nat
  startM : Nat
  endH : Nat
  endM : Nat
  event : String
  round : Int
  groups : Nat
  areas : Nat
deriving DecidableEq, Repr

/-- Day index of the three dates hard-wired at lines 10-18
(2016-07-15/16/17); `none` for any other day name, for which
`Event.__init__` never sets `self.start`/`self.end`. -/
def dayDate : String → Option Int
  | "Friday" => some 0
  | "Saturday" => some 1
  | "Sunday" => some 2
  | _ => none

/-- `datetime.datetime(2016, 7, D, h, m)` of the event start, as
microseconds since 2016-07-15 00:00.  `none` models both the unset
attribute for an unknown day name and the `ValueError` of an
out-of-range hour or minute. -/
def Event.startTime (e : Event) : Option Int :=
  match dayDate e.day with
  | some d =>
      if e.startH ≤ 23 ∧ e.startM ≤ 59 then
        some (d * usPerDay + ((e.startH : Int) * 60 + (e.startM : Int)) * usPerMin)
      else none
  | none => none

/-- The event end datetime, as for `Event.startTime`. -/
def Event.endTime (e : Event) : Option Int :=
  match dayDate e.day with
  | some d =>
      if e.endH ≤ 23 ∧ e.endM ≤ 59 then
        some (d * usPerDay + ((e.endH : Int) * 60 + (e.endM : Int)) * usPerMin)
      else none
  | none => none

/-- `timedelta(hours=e.end.hour, minutes=e.end.minute) -
timedelta(hours=e.start.hour, minutes=e.start.minute)` of lines 87-88:
the event duration computed from the clock fields only. -/
def Event.delta (e : Event) : Int :=
  (((e.endH : Int) * 60 + (e.endM : Int)) - ((e.startH : Int) * 60 + (e.startM : Int))) * usPerMin

/-- The `i`-th group boundary `e.start + i*(end-start) // e.groups` of
lines 87-88; Python `//` on a `timedelta` is floor division. -/
def groupBound (e : Event) (st : Int) (i : Nat) : Int :=
  st + Int.fdiv ((i : Int) * e.delta) (e.groups : Int)

/-- One group of an event together with its heat ids
`[i*e.areas+j+1 for j in range(0, e.areas)]` (lines 85-92). -/
def evGroup (e : Event) (st : Int) (i : Nat) : Group × List Int :=
  ⟨{ event := e.event, round := e.round, gidx := i + 1, day := e.day,
     start := groupBound e st i, stop := groupBound e st (i + 1) },
   (List.range e.areas).map fun j => ((i * e.areas + j + 1 : Nat) : Int)⟩

/-- Lines 85-92 for one event: its list of groups and heat lists.  The
loop body runs once per `i in range(0, e.groups)`; for an unknown day
name `self.start` was never set, so the first iteration crashes with an
`AttributeError` — but when `e.groups = 0` the body never runs and the
event simply contributes no groups.  For a known day with an
out-of-range hour or minute the `datetime` constructor raises
`ValueError` already while the event is read (line 82, inside
`Event.__init__`), before the builder loop and regardless of the group
count; the model has no separate reading phase, so that earlier crash
is folded into the builder's error result here. -/
def buildEvent (e : Event) : Except String (List (Group × List Int)) :=
  match dayDate e.day with
  | none =>
      if e.groups = 0 then .ok []
      else .error ("Unknown day for event " ++ e.event)
  | some _ =>
      match e.startTime, e.endTime with
      | some st, some _ => .ok ((List.range e.groups).map (evGroup e st))
      | _, _ => .error ("Invalid time for event " ++ e.event)

/-- The calendar builder: lines 85-92 over the whole event list, in input
order; the first failing event aborts the build. -/
def buildCalendar : List Event → Except String (List (Group × List Int))
  | [] => .ok []
  | e :: es =>
    match buildEvent e with
    | .error msg => .error msg
    | .ok gs =>
      match buildCalendar es with
      | .error msg => .error msg
      | .ok rest => .ok (gs ++ rest)

/-- Membership of a point of time in a group's half-open window. -/
def inWindow (g : Group) (x : Int) : Prop := g.start ≤ x ∧ x < g.stop

/-- Pointwise update of one entry of an availability row. -/
def upd (a : Group → Int) (g : Group) (v : Int) : Group → Int :=
  fun h => if h = g then v else a h

/-- Pointwise update of one row of a per-name map. -/
def updRow (A : String → Group → Int) (n : String) (row : Group → Int) :
    String → Group → Int :=
  fun m => if m = n then row else A m

/-- Pointwise update of one entry of the global availability map. -/
def upd2 (A : String → Group → Int) (n : String) (g : Group) (v : Int) :
    String → Group → Int :=
  fun m h => if m = n ∧ h = g then v else A m h

/-- The practice-buffer scan of lines 141-143 and 148-150: after the hard
block on group `g`, every group still at value 2 that starts before `g`'s
start and ends later than 15 minutes before it (`h[4] < g[4] and
h[5] > g[4] - timedelta(minutes=15)`) is demoted to 1. -/
def bufferRow (groups : List Group) (g : Group) (a : Group → Int) : Group → Int :=
  groups.foldl
    (fun a h =>
      if a h = 2 ∧ h.start < g.start ∧ g.start - bufferUs < h.stop then upd a h 1 else a)
    a

/-- One staff member's pass of lines 130-150 over all groups: the three
day-off rules, the competitor hard block (round 1, own heat in the
group's heat list) and the proceeding hard block (round > 1, event in the
proceeding list), each hard block recording a commitment and running the
practice-buffer scan when the event is in the practice list.  State: the
staff member's availability row and commitment list. -/
def hardBlocksRow (grouping : String → Int) (heats : Group → List Int)
    (groups : List Group) (s : Staff) (a0 : Group → Int)
    (sch0 : List (String × Group)) :
    (Group → Int) × List (String × Group) :=
  groups.foldl
    (fun st g =>
      let a := st.1
      let a := if s.fri = 0 ∧ g.day = "Friday" then upd a g 0 else a
      let a := if s.sat = 0 ∧ g.day = "Saturday" then upd a g 0 else a
      let a := if s.sun = 0 ∧ g.day = "Sunday" then upd a g 0 else a
      let st2 :=
        if g.round = 1 ∧ grouping g.event ∈ heats g then
          (let a := upd a g 0
           let a := if g.event ∈ s.prac then bufferRow groups g a else a
           (a, st.2 ++ [("c", g)]))
        else (a, st.2)
      if 1 < g.round ∧ g.event ∈ s.proc then
        (let a := upd st2.1 g 0
         let a := if g.event ∈ s.prac then bufferRow groups g a else a
         (a, st2.2 ++ [("p", g)]))
      else st2)
    (a0, sch0)

/-- Lines 124-150 over all staff: the global availability map (initially 2
everywhere, lines 124-128) together with the commitment map. -/
def hardBlocksAll (grouping : String → String → Int) (heats : Group → List Int)
    (groups : List Group) (staffs : List Staff) :
    (String → Group → Int) × (String → List (String × Group)) :=
  staffs.foldl
    (fun st s =>
      let r := hardBlocksRow (grouping s.name) heats groups s (st.1 s.name) (st.2 s.name)
      (updRow st.1 s.name r.1, fun m => if m = s.name then r.2 else st.2 m))
    (fun _ _ => 2, fun _ => [])

/-- The 1-minute-tolerance overlap test of lines 168 and 244:
`g[4] - 1min < h[5] + 1min and h[4] - 1min < g[5] + 1min`. -/
def overlapTol (g h : Group) : Prop :=
  g.start - tolUs < h.stop + tolUs ∧ h.start - tolUs < g.stop + tolUs

instance (g h : Group) : Decidable (overlapTol g h) := by
  unfold overlapTol; infer_instance

/-- The second `if` of lines 171-172: a main entry that is available while
the side partner is unavailable becomes `-1`. -/
def parPairStep2 (g : Group) (a1 : Group → Int) (h : Group) : Group → Int :=
  if 0 < a1 g ∧ a1 h = 0 then upd a1 g (-1) else a1

/-- The body of the innermost loop of lines 166-172, for the outer
main-event group `g` and inner candidate `h`: when `h` is a side-event
group overlapping `g`, an entry that is still available while its partner
is unavailable is set to the provisional value `-1` (line 170's comment:
"intermediate value to avoid chain reactions"). -/
def parPairStep (g : Group) (a : Group → Int) (h : Group) : Group → Int :=
  if h.event ∈ side_events ∧ overlapTol g h then
    parPairStep2 g (if a g = 0 ∧ 0 < a h then upd a h (-1) else a) h
  else a

/-- One iteration of the outer loop of lines 164-172. -/
def parMainStep (groups : List Group) (a : Group → Int) (g : Group) : Group → Int :=
  if g.event ∈ main_events then groups.foldl (parPairStep g) a else a

/-- The sentinel phase of the parallel-conflict pass for one staff row
(lines 163-172). -/
def parSentinelRow (groups : List Group) (a : Group → Int) : Group → Int :=
  groups.foldl (parMainStep groups) a

/-- Proof scaffolding: the set of entries the pair checks of the single
outer group `g` force, evaluated against the pre-pass state `a`, once the
inner loop has run over the list `q`. -/
def innerForced (a : Group → Int) (g : Group) (q : List Group) (x : Group) : Prop :=
  (x ∈ q ∧ x.event ∈ side_events ∧ overlapTol g x ∧ a g = 0 ∧ 0 < a x) ∨
  (x = g ∧ ∃ h ∈ q, h.event ∈ side_events ∧ overlapTol g h ∧ 0 < a g ∧ a h = 0)

/-- Proof scaffolding: the set of entries forced once the outer loop has
run over the prefix `p`, against the pre-pass state `a`; `groups` is the
full list scanned by the inner loop. -/
def outerForced (groups : List Group) (a : Group → Int) (p : List Group) (x : Group) : Prop :=
  (x ∈ groups ∧ x.event ∈ side_events ∧
    ∃ g ∈ p, g.event ∈ main_events ∧ overlapTol g x ∧ a g = 0 ∧ 0 < a x) ∨
  (x ∈ p ∧ x.event ∈ main_events ∧
    ∃ h ∈ groups, h.event ∈ side_events ∧ overlapTol x h ∧ 0 < a x ∧ a h = 0)

/-- The finalisation phase of lines 173-176: every `-1` becomes `0`. -/
def parFinalizeRow (groups : List Group) (a : Group → Int) : Group → Int :=
  groups.foldl (fun a g => if a g = -1 then upd a g 0 else a) a

/-- The whole parallel-conflict pass for one staff row. -/
def parallelPassRow (groups : List Group) (a : Group → Int) : Group → Int :=
  parFinalizeRow groups (parSentinelRow groups a)

/-- Lines 163-176 over all staff: the sentinel loop for every staff member,
then the finalisation loop for every staff member. -/
def parallelPassAll (groups : List Group) (staffs : List Staff)
    (A : String → Group → Int) : String → Group → Int :=
  let A := staffs.foldl (fun A s => updRow A s.name (parSentinelRow groups (A s.name))) A
  staffs.foldl (fun A s => updRow A s.name (parFinalizeRow groups (A s.name))) A

/-- Modelled from the spec (§4.2 step 5): the change-set of the two-phase
reference computation, collected against the pre-pass state `a` — an entry
of `groups` is to be blocked when it is available and some overlapping
partner (a main-event group paired with a side-event group) is
unavailable in the pre-pass state. -/
def refForced (groups : List Group) (a : Group → Int) (x : Group) : Prop :=
  (x ∈ groups ∧ x.event ∈ side_events ∧
    ∃ g ∈ groups, g.event ∈ main_events ∧ overlapTol g x ∧ a g = 0 ∧ 0 < a x) ∨
  (x ∈ groups ∧ x.event ∈ main_events ∧
    ∃ h ∈ groups, h.event ∈ side_events ∧ overlapTol x h ∧ 0 < a x ∧ a h = 0)

instance (groups : List Group) (a : Group → Int) (x : Group) :
    Decidable (refForced groups a x) := by
  unfold refForced; exact inferInstance

/-- Modelled from the spec (§4.2 step 5): the two-phase reference pass —
collect the change-set against the pre-pass state, then apply every block
at once. -/
def refPassRow (groups : List Group) (a : Group → Int) : Group → Int :=
  fun x => if refForced groups a x then 0 else a x

/-- The mutable scheduling state: the global availability map `avail`, the
commitment map `Schedules`, the all-time `workload` and the streak
`curr_wl`, all keyed by staff name as in the source. -/
structure Sch where
  avail : String → Group → Int
  sched : String → List (String × Group)
  wl : String → Int
  cwl : String → Int

/-- The placement updates common to every assignment (e.g. lines 267-274
and 277-284): record the commitment, zero the availability for `g` (and
for the parallel side group when present), and add the group duration to
workload and streak. -/
def place (role : String) (g : Group) (par : Option Group) (dur : Int)
    (s : Staff) (st : Sch) : Sch :=
  let a := upd2 st.avail s.name g 0
  let a := match par with
    | some p => upd2 a s.name p 0
    | none => a
  { avail := a
    sched := fun m => if m = s.name then st.sched m ++ [(role, g)] else st.sched m
    wl := fun m => if m = s.name then st.wl m + dur else st.wl m
    cwl := fun m => if m = s.name then st.cwl m + dur else st.cwl m }

/-- Which branch filled a slot.  Ghost data: `Placed.who` recovers the
source's assignment list, while the remaining fields record the branch
taken and the state read at the decision (used to state the continuity
claims); they do not influence the computation. -/
inductive Origin
  | carry
  | drawn
deriving DecidableEq, Repr

structure Placed where
  who : Staff
  slot : Nat
  origin : Origin
  availBefore : Int
  cwlBefore : Int
deriving DecidableEq, Repr

/-- The carryover branch of one slot of the scrambler/runner fill loops
(lines 263-274 and 299-310): when the previous group's role list reaches
slot `i`, its holder passes the extra eligibility test and is still at
availability 2 with streak headroom, retain them (recording the
commitment and removing them from the pool — `avstaff.remove(ls)` raises
`ValueError` when absent, modelled by the error branch). -/
def carryStaff (role : String) (extra : Staff → Bool) (g : Group) (par : Option Group)
    (dur : Int) (prev : List Staff) (i : Nat) (acc : List Placed)
    (pool : List Staff) (st : Sch) : Except String (List Placed × List Staff × Sch) :=
  if h : i < prev.length then
    if extra (prev.get ⟨i, h⟩) = true ∧ st.avail (prev.get ⟨i, h⟩).name g = 2 ∧
        st.cwl (prev.get ⟨i, h⟩).name + dur ≤ hourUs then
      if prev.get ⟨i, h⟩ ∈ pool then
        .ok (acc ++ [⟨prev.get ⟨i, h⟩, i, .carry, st.avail (prev.get ⟨i, h⟩).name g,
              st.cwl (prev.get ⟨i, h⟩).name⟩],
             pool.erase (prev.get ⟨i, h⟩), place role g par dur (prev.get ⟨i, h⟩) st)
      else .error "ValueError: remove"
    else .ok (acc, pool, st)
  else .ok (acc, pool, st)

/-- The shared slot-filling loop of the scrambler (lines 262-284) and
runner (lines 298-320) stages, which differ only in the commitment tag
and in the extra carryover eligibility test: `k` slots remain, `i` is the
current slot index, `prev` is the same role's list of `lastg` (empty when
`lastg == 0`).  Per slot: the carryover branch, then — when the slot is
still empty — the pool draw `avstaff[0]` (`IndexError` on an empty
pool). -/
def fillStaffRole (role : String) (extra : Staff → Bool) (g : Group) (par : Option Group)
    (dur : Int) (prev : List Staff) :
    Nat → Nat → List Placed → List Staff → Sch →
    Except String (List Placed × List Staff × Sch)
  | 0, _, acc, pool, st => .ok (acc, pool, st)
  | k + 1, i, acc, pool, st =>
    match carryStaff role extra g par dur prev i acc pool st with
    | .error e => .error e
    | .ok (acc, pool, st) =>
      if acc.length < i + 1 then
        match pool with
        | [] => .error "IndexError: empty pool"
        | chs :: rest =>
          fillStaffRole role extra g par dur prev k (i + 1)
            (acc ++ [⟨chs, i, .drawn, st.avail chs.name g, st.cwl chs.name⟩])
            rest (place role g par dur chs st)
      else fillStaffRole role extra g par dur prev k (i + 1) acc pool st

/-- The scrambler fill loop (lines 262-284): carryover additionally
requires `g[0] in ls.scr2` (line 266). -/
def fillScr (g : Group) (par : Option Group) (dur : Int) (prev : List Staff) :
    Nat → Nat → List Placed → List Staff → Sch →
    Except String (List Placed × List Staff × Sch) :=
  fillStaffRole "s" (fun ls => decide (g.event ∈ ls.scr2)) g par dur prev

/-- The runner fill loop (lines 298-320): the carryover guard checks only
availability 2 and the streak cap (line 302). -/
def fillRun (g : Group) (par : Option Group) (dur : Int) (prev : List Staff) :
    Nat → Nat → List Placed → List Staff → Sch →
    Except String (List Placed × List Staff × Sch) :=
  fillStaffRole "r" (fun _ => true) g par dur prev

/-- A judge slot: a staff member or the `"NA"` placeholder. -/
inductive JSlot
  | staff (s : Staff)
  | na
deriving DecidableEq, Repr

inductive JOrigin
  | carry
  | drawn
  | unfilled
deriving DecidableEq, Repr

structure JPlaced where
  who : JSlot
  slot : Nat
  origin : JOrigin
  availBefore : Int
  cwlBefore : Int
deriving DecidableEq, Repr

/-- The carryover branch of one judge slot (lines 338-349): it
additionally requires the previous judge list not to end in `"NA"`
(line 339), and reading `.name` of a `"NA"` entry would crash (the error
branch on `.na`). -/
def carryJud (g : Group) (par : Option Group) (dur : Int) (prev : List JSlot)
    (i : Nat) (acc : List JPlaced) (pool : List Staff) (st : Sch) :
    Except String (List JPlaced × List Staff × Sch) :=
  if h : i < prev.length then
    if prev.getLast? ≠ some JSlot.na then
      match prev.get ⟨i, h⟩ with
      | .na => .error "AttributeError: no attribute name"
      | .staff ls =>
        if st.avail ls.name g = 2 ∧ st.cwl ls.name + dur ≤ hourUs then
          if ls ∈ pool then
            .ok (acc ++ [⟨.staff ls, i, .carry, st.avail ls.name g, st.cwl ls.name⟩],
                 pool.erase ls, place "j" g par dur ls st)
          else .error "ValueError: remove"
        else .ok (acc, pool, st)
    else .ok (acc, pool, st)
  else .ok (acc, pool, st)

/-- The judge fill loop of lines 333-359: if the pool is empty the
remaining slots are filled with `"NA"` and the loop breaks (lines
334-337); otherwise the carryover branch, then the pool draw. -/
def fillJud (g : Group) (par : Option Group) (dur : Int) (prev : List JSlot) :
    Nat → Nat → List JPlaced → List Staff → Sch →
    Except String (List JPlaced × List Staff × Sch)
  | 0, _, acc, pool, st => .ok (acc, pool, st)
  | k + 1, i, acc, pool, st =>
    if pool = [] then
      .ok (acc ++ (List.range (k + 1)).map (fun j => ⟨.na, i + j, .unfilled, 0, 0⟩), pool, st)
    else
      match carryJud g par dur prev i acc pool st with
      | .error e => .error e
      | .ok (acc, pool, st) =>
        if acc.length < i + 1 then
          match pool with
          | [] => .error "IndexError: empty pool"
          | chs :: rest =>
            fillJud g par dur prev k (i + 1)
              (acc ++ [⟨.staff chs, i, .drawn, st.avail chs.name g, st.cwl chs.name⟩])
              rest (place "j" g par dur chs st)
        else fillJud g par dur prev k (i + 1) acc pool st

/-- The scrambler ranking of lines 255-261: shuffle already applied; the
five stable sorts in source order (streak ascending, workload ascending,
secondary-eligibility count descending, availability for `g` descending,
availability for the parallel group ascending when one exists). -/
def rankScr (st : Sch) (g : Group) (par : Option Group) (l : List Staff) : List Staff :=
  let l := l.insertionSort (fun a b => st.cwl a.name ≤ st.cwl b.name)
  let l := l.insertionSort (fun a b => st.wl a.name ≤ st.wl b.name)
  let l := l.insertionSort (fun a b => b.scr2.count g.event ≤ a.scr2.count g.event)
  let l := l.insertionSort (fun a b => st.avail b.name g ≤ st.avail a.name g)
  match par with
  | some p => l.insertionSort (fun a b => st.avail a.name p ≤ st.avail b.name p)
  | none => l

/-- The runner ranking of lines 291-297, in source order: streak
ascending, running tier descending, workload ascending, availability for
`g` descending, availability for the parallel group ascending. -/
def rankRun (st : Sch) (g : Group) (par : Option Group) (l : List Staff) : List Staff :=
  let l := l.insertionSort (fun a b => st.cwl a.name ≤ st.cwl b.name)
  let l := l.insertionSort (fun a b => b.run ≤ a.run)
  let l := l.insertionSort (fun a b => st.wl a.name ≤ st.wl b.name)
  let l := l.insertionSort (fun a b => st.avail b.name g ≤ st.avail a.name g)
  match par with
  | some p => l.insertionSort (fun a b => st.avail a.name p ≤ st.avail b.name p)
  | none => l

/-- The judge ranking of lines 327-332. -/
def rankJud (st : Sch) (g : Group) (par : Option Group) (l : List Staff) : List Staff :=
  let l := l.insertionSort (fun a b => st.cwl a.name ≤ st.cwl b.name)
  let l := l.insertionSort (fun a b => st.wl a.name ≤ st.wl b.name)
  let l := l.insertionSort (fun a b => st.avail b.name g ≤ st.avail a.name g)
  match par with
  | some p => l.insertionSort (fun a b => st.avail a.name p ≤ st.avail b.name p)
  | none => l

/-- `str(g)` as printed by the abort messages. -/
def describeGroup (g : Group) : String :=
  g.event ++ ", Round " ++ toString g.round ++ ", Group " ++ toString g.gidx ++ ", " ++ g.day

def scrMsg (g : Group) : String :=
  "PROBLEM: Not enough staff for scrambling Group " ++ describeGroup g

def runnersMsg (g : Group) : String :=
  "PROBLEM: Not enough staff for runners of Group " ++ describeGroup g

/-- Lines 250-284: build the scrambler candidate pool, abort the run when
it is smaller than `heats*scramblers_main` (lines 252-254), else shuffle
(the permutation oracle `sh` at the current counter), rank and fill. -/
def scrStage (sh : Nat → List Staff → List Staff) (staffs : List Staff)
    (hcount : Nat) (g : Group) (par : Option Group) (prev : List Staff)
    (seed : Nat) (st : Sch) : Except String (List Placed × Sch × Nat) :=
  let pool0 := staffs.filter fun s =>
    decide (0 < st.avail s.name g ∧ (g.event ∈ s.scr2 ∨ g.event ∈ s.scr1))
  if pool0.length < hcount * scramblers_main then .error (scrMsg g)
  else do
    let r ← fillScr g par (g.stop - g.start) prev (hcount * scramblers_main) 0 []
      (rankScr st g par (sh seed pool0)) st
    .ok (r.1, r.2.2, seed + 1)

/-- Lines 286-320: the runner stage; the pool is the available staff with
positive running tier, and a shortage aborts the run (lines 288-290). -/
def runStage (sh : Nat → List Staff → List Staff) (staffs : List Staff)
    (hcount : Nat) (g : Group) (par : Option Group) (prev : List Staff)
    (seed : Nat) (st : Sch) : Except String (List Placed × Sch × Nat) :=
  let pool0 := staffs.filter fun s =>
    decide (0 < st.avail s.name g ∧ 0 < s.run)
  if pool0.length < hcount * runners_main then .error (runnersMsg g)
  else do
    let r ← fillRun g par (g.stop - g.start) prev (hcount * runners_main) 0 []
      (rankRun st g par (sh seed pool0)) st
    .ok (r.1, r.2.2, seed + 1)

/-- Lines 322-359: the judge stage; the quota lookup `judges_main[h]`
raises a `KeyError` for heat counts outside the table (modelled as an
error), and a pool shortage only prints a warning (lines 324-326). -/
def judStage (sh : Nat → List Staff → List Staff) (staffs : List Staff)
    (hcount : Nat) (g : Group) (par : Option Group) (prevJ : List JSlot)
    (seed : Nat) (st : Sch) : Except String (List JPlaced × Sch × Nat) :=
  match judges_main hcount with
  | none => .error "KeyError: judges_main"
  | some quota =>
    let pool0 := staffs.filter fun s => decide (0 < st.avail s.name g)
    do
      let r ← fillJud g par (g.stop - g.start) prevJ quota 0 []
        (rankJud st g par (sh seed pool0)) st
      .ok (r.1, r.2.2, seed + 1)

/-- Per-group output record: the group and its three placement lists
(`Scramblers[g]`, `Runners[g]`, `Judges[g]` are the `who` projections). -/
structure GAssign where
  grp : Group
  scr : List Placed
  runs : List Placed
  jud : List JPlaced
deriving DecidableEq, Repr

/-- Number of `"NA"` placeholders in a judge list. -/
def countNA (l : List JPlaced) : Nat :=
  (l.filter fun p => decide (p.who = JSlot.na)).length

/-- The names of the staff in a placement list. -/
def pNames (l : List Placed) : List String :=
  l.map fun p => p.who.name

/-- The names of the real staff (skipping `"NA"`) in a judge list. -/
def jNames (l : List JPlaced) : List String :=
  l.filterMap fun p =>
    match p.who with
    | .staff s => some s.name
    | .na => none

/-- The assignment-engine state: scheduling state, `lastg` with the three
lists of the last processed main-event group, the shuffle counter, and the
per-group output records in processing order. -/
structure EngSt where
  sch : Sch
  lastg : Option Group
  lastScr : List Staff
  lastRun : List Staff
  lastJud : List JSlot
  seed : Nat
  assign : List GAssign

/-- The day-change reset of lines 236-240: forget `lastg` and zero every
streak when the day differs from the previous main-event group's day. -/
def dayReset (g : Group) (est : EngSt) : EngSt :=
  match est.lastg with
  | some lg =>
    if g.day ≠ lg.day then
      { est with lastg := none, sch := { est.sch with cwl := fun _ => 0 } }
    else est
  | none => est

/-- Lines 234-365 for one group of the global list: skip non-main events;
otherwise reset the continuity context on a day change (lines 236-240),
locate the first overlapping side-event group (lines 242-246), run the
three role stages, reset the streak of everyone not assigned in this
group (lines 361-363), and record the group's lists. -/
def processGroup (sh : Nat → List Staff → List Staff) (staffs : List Staff)
    (heats : Group → List Int) (groups : List Group) (g : Group)
    (est : EngSt) : Except String EngSt :=
  if g.event ∈ main_events then
    let est := dayReset g est
    let par := groups.find? fun hh => decide (hh.event ∈ side_events ∧ overlapTol g hh)
    let hcount := (heats g).length
    let prevScr := if est.lastg.isSome then est.lastScr else []
    let prevRun := if est.lastg.isSome then est.lastRun else []
    let prevJud := if est.lastg.isSome then est.lastJud else []
    do
      let rs ← scrStage sh staffs hcount g par prevScr est.seed est.sch
      let rr ← runStage sh staffs hcount g par prevRun rs.2.2 rs.2.1
      let rj ← judStage sh staffs hcount g par prevJud rr.2.2 rr.2.1
      let scrW := rs.1.map (·.who)
      let runW := rr.1.map (·.who)
      let judW := rj.1.map (·.who)
      let st3 := rj.2.1
      let cwl2 := staffs.foldl
        (fun c s =>
          if s ∈ scrW ∨ s ∈ runW ∨ JSlot.staff s ∈ judW then c
          else fun m => if m = s.name then 0 else c m)
        st3.cwl
      .ok { sch := { st3 with cwl := cwl2 }
            lastg := some g
            lastScr := scrW
            lastRun := runW
            lastJud := judW
            seed := rj.2.2
            assign := est.assign ++ [⟨g, rs.1, rr.1, rj.1⟩] }
  else .ok est

/-- The main loop of lines 228-365 over the group list. -/
def runMain (sh : Nat → List Staff → List Staff) (staffs : List Staff)
    (heats : Group → List Int) (groups : List Group) :
    List Group → EngSt → Except String EngSt
  | [], est => .ok est
  | g :: gs, est => do
      let est2 ← processGroup sh staffs heats groups g est
      runMain sh staffs heats groups gs est2

/-- The initial engine state (lines 228-233) on top of the availability
engine's output. -/
def engInit (A : String → Group → Int) (schedMap : String → List (String × Group)) : EngSt :=
  ⟨⟨A, schedMap, fun _ => 0, fun _ => 0⟩, none, [], [], [], 0, []⟩

/-- The side-event reporter of lines 367-373: for every side-event group
collect the available staff, and for side events other than `"333fm"`
append a judge commitment for each of them. -/
def sideReport (staffs : List Staff) (groups : List Group) (st : Sch) :
    Sch × List (Group × List Staff) :=
  groups.foldl
    (fun r g =>
      if g.event ∈ side_events then
        let avstaff := staffs.filter fun s => decide (0 < r.1.avail s.name g)
        let sc2 := avstaff.foldl
          (fun sc s => fun m => if m = s.name then sc m ++ [("j", g)] else sc m)
          r.1.sched
        let st2 := if g.event ≠ "333fm" then { r.1 with sched := sc2 } else r.1
        (st2, r.2 ++ [(g, avstaff)])
      else r)
    (st, [])

/-- Lines 377-378: sort every staff member's commitment list by group
start time (Python's stable sort). -/
def sortSchedules (staffs : List Staff) (sched : String → List (String × Group)) :
    String → List (String × Group) :=
  staffs.foldl
    (fun sc s => fun m =>
      if m = s.name then (sc m).insertionSort (fun a b => a.2.start ≤ b.2.start) else sc m)
    sched

/-- The adjacent-pair scan of lines 384-389 on one sorted commitment list:
a violation when a commitment starts before the previous one ends. -/
def rowViolation : List (String × Group) → Bool
  | a :: b :: rest => decide (b.2.start < a.2.stop) || rowViolation (b :: rest)
  | _ => false

/-- Lines 380-391: the consistency check over all staff (violations are
only reported; the run is not aborted). -/
def consistencyErrors (staffs : List Staff) (sched : String → List (String × Group)) : Bool :=
  staffs.any fun s => rowViolation (sched s.name)

/-- The output of the whole pipeline. -/
structure PipeOut where
  avail : String → Group → Int
  sched : String → List (String × Group)
  wl : String → Int
  assign : List GAssign
  availSide : List (Group × List Staff)
  inconsistent : Bool

/-- The whole program after input parsing: availability engine,
parallel-conflict pass, assignment engine, side-event reporter, schedule
sort and consistency check. -/
def runPipeline (sh : Nat → List Staff → List Staff) (groups : List Group)
    (heats : Group → List Int) (grouping : String → String → Int)
    (staffs : List Staff) : Except String PipeOut := do
  let hb := hardBlocksAll grouping heats groups staffs
  let a2 := parallelPassAll groups staffs hb.1
  let est ← runMain sh staffs heats groups groups (engInit a2 hb.2)
  let sr := sideReport staffs groups est.sch
  let sched2 := sortSchedules staffs sr.1.sched
  .ok { avail := sr.1.avail, sched := sched2, wl := sr.1.wl,
        assign := est.assign, availSide := sr.2,
        inconsistent := consistencyErrors staffs sched2 }

/-! ### Concrete inputs used by counterexamples and witnesses -/

/-- A fully available staff member eligible for everything relevant. -/
def alice : Staff := ⟨"AL", 1, 1, 1, 1, ["333"], ["333"], [], []⟩

def bob : Staff := ⟨"BO", 1, 1, 1, 1, ["333"], [], [], []⟩

/-- A fresh scheduling state: everyone fully available, nothing recorded. -/
def stCar : Sch := ⟨fun _ _ => 2, fun _ => [], fun _ => 0, fun _ => 0⟩

/-- A 60-minute event cut into 7 groups: 7 does not divide the duration. -/
def ev7 : Event := ⟨1, "Friday", 10, 0, 11, 0, "333", 1, 7, 1⟩

/-- A 60-minute event with `groups = 0`. -/
def ev0 : Event := ⟨2, "Friday", 10, 0, 11, 0, "444", 1, 0, 1⟩

/-- A 120-minute event cut into 2 groups: the duration is divisible. -/
def ev2 : Event := ⟨3, "Friday", 10, 0, 12, 0, "555", 1, 2, 2⟩

/-- An event whose day name is not one of the three valid days. -/
def evBadDay : Event := ⟨4, "Thursday", 10, 0, 11, 0, "333", 1, 1, 1⟩

/-- An unknown-day event with `groups = 0`: the builder loop body never
runs for it, so its unset start attribute is never read. -/
def evBadDay0 : Event := ⟨5, "Thursday", 10, 0, 11, 0, "222", 1, 0, 1⟩

/-- Concrete groups used by witnesses: an overlapping main/side pair. -/
def gmC : Group := ⟨"333", 1, 1, "Friday", 600 * usPerMin, 660 * usPerMin⟩

def gsC : Group := ⟨"444bf", 1, 1, "Friday", 630 * usPerMin, 690 * usPerMin⟩

def aC : Group → Int := fun x => if x = gmC then 0 else 2

/-- Roster for the C5 witness run: three scrambler-eligible staff and
three runners, all fully available. -/
def wStaffs : List Staff :=
  [⟨"S1", 1, 1, 1, 0, ["333"], [], [], []⟩,
   ⟨"S2", 1, 1, 1, 0, ["333"], [], [], []⟩,
   ⟨"S3", 1, 1, 1, 0, ["333"], [], [], []⟩,
   ⟨"R1", 1, 1, 1, 1, [], [], [], []⟩,
   ⟨"R2", 1, 1, 1, 1, [], [], [], []⟩,
   ⟨"R3", 1, 1, 1, 1, [], [], [], []⟩]

def wHeats : Group → List Int := fun _ => [1]

/-- The witness run's final engine state, extracted from the computed
result. -/
def wOut : EngSt :=
  ((runMain (fun _ l => l) wStaffs wHeats [gmC] [gmC]
    (engInit (fun _ _ => 2) (fun _ => []))).toOption).getD
    (engInit (fun _ _ => 2) (fun _ => []))

def wEntry : GAssign := wOut.assign.headD ⟨gmC, [], [], []⟩

/-- Runner candidates for the C2 counterexample: `yC2` has the higher
running tier but the larger all-time workload. -/
def xC2 : Staff := ⟨"X", 1, 1, 1, 1, [], [], [], []⟩

def yC2 : Staff := ⟨"Y", 1, 1, 1, 2, [], [], [], []⟩

def stC2 : Sch := ⟨fun _ _ => 2, fun _ => [], fun n => if n = "X" then 0 else 10, fun _ => 0⟩

/-- Concrete runner candidates for the C2 witness: tied on workload and
availability, with different tiers and streaks. -/
def xW2 : Staff := ⟨"XW", 1, 1, 1, 2, [], [], [], []⟩

def yW2 : Staff := ⟨"YW", 1, 1, 1, 1, [], [], [], []⟩

def stW2 : Sch := ⟨fun _ _ => 2, fun _ => [], fun _ => 0,
  fun n => if n = "XW" then 7 else 0⟩

/-- Two overlapping side-event groups (10:00-11:00 and 10:30-11:30). -/
def g444 : Group := ⟨"444bf", 1, 1, "Friday", 600 * usPerMin, 660 * usPerMin⟩

def g555 : Group := ⟨"555bf", 1, 1, "Friday", 630 * usPerMin, 690 * usPerMin⟩

/-- A staff member with full day availability and no commitments. -/
def stA : Staff := ⟨"A", 1, 1, 1, 0, [], [], [], []⟩

/-! ### General helper lemmas -/

theorem fdiv_mono {a b c : Int} (hc : 0 < c) (h : a ≤ b) : a.fdiv c ≤ b.fdiv c := by
  rw [Int.fdiv_eq_ediv _ hc.le, Int.fdiv_eq_ediv _ hc.le]
  exact Int.ediv_le_ediv hc h

theorem groupBound_zero (e : Event) (st : Int) : groupBound e st 0 = st := by
  simp [groupBound]

theorem groupBound_last (e : Event) (st : Int) (hG : 0 < e.groups) :
    groupBound e st e.groups = st + e.delta := by
  unfold groupBound
  rw [Int.mul_fdiv_cancel_left _ (by exact_mod_cast hG.ne')]

theorem groupBound_mono (e : Event) (st : Int) (hd : 0 ≤ e.delta) (hG : 0 < e.groups)
    {i j : Nat} (hij : i ≤ j) : groupBound e st i ≤ groupBound e st j := by
  unfold groupBound
  have hc : (0 : Int) < (e.groups : Int) := by exact_mod_cast hG
  have hm : (i : Int) * e.delta ≤ (j : Int) * e.delta :=
    mul_le_mul_of_nonneg_right (by exact_mod_cast hij) hd
  have := fdiv_mono hc hm
  omega

theorem delta_pos_of_window (e : Event) (st : Int) (hG : 0 < e.groups) {i : Nat} {x : Int}
    (hw : inWindow (evGroup e st i).1 x) : 0 < e.delta := by
  have h1 : groupBound e st i < groupBound e st (i + 1) := by
    have := hw.1.trans_lt hw.2
    simpa [evGroup] using this
  by_contra hd
  push_neg at hd
  have hc : (0 : Int) < (e.groups : Int) := by exact_mod_cast hG
  have hm : ((i + 1 : Nat) : Int) * e.delta ≤ (i : Int) * e.delta := by
    have : ((i : Int) + 1) * e.delta ≤ (i : Int) * e.delta := by nlinarith
    simpa [Nat.cast_add] using this
  have := fdiv_mono hc hm
  unfold groupBound at h1
  omega

theorem exists_interval {f : Nat → Int} :
    ∀ {n : Nat}, (∀ i j, i ≤ j → j ≤ n → f i ≤ f j) → ∀ {x : Int}, f 0 ≤ x → x < f n →
      ∃ i, i < n ∧ f i ≤ x ∧ x < f (i + 1) := by
  intro n
  induction n with
  | zero => intro _ x h0 hn; exact absurd (h0.trans_lt hn) (lt_irrefl _)
  | succ m ih =>
    intro mono x h0 hn
    by_cases hm : f m ≤ x
    · exact ⟨m, Nat.lt_succ_self m, hm, hn⟩
    · obtain ⟨i, hi, h1, h2⟩ :=
        ih (fun i j hij hj => mono i j hij (Nat.le_succ_of_le hj)) h0 (lt_of_not_le hm)
      exact ⟨i, Nat.lt_succ_of_lt hi, h1, h2⟩

theorem dayDate_eq_none {d : String}
    (hd : d ∉ (["Friday", "Saturday", "Sunday"] : List String)) : dayDate d = none := by
  unfold dayDate
  split <;> simp_all

theorem startTime_none {e : Event} (h : dayDate e.day = none) : e.startTime = none := by
  unfold Event.startTime
  rw [h]

theorem endTime_none {e : Event} (h : dayDate e.day = none) : e.endTime = none := by
  unfold Event.endTime
  rw [h]

theorem buildEvent_error {e : Event} (h : dayDate e.day = none) (hg : e.groups ≠ 0) :
    buildEvent e = .error ("Unknown day for event " ++ e.event) := by
  unfold buildEvent
  rw [h]
  dsimp only
  rw [if_neg hg]

/-! ### C9: an unknown day and the calendar build -/

/-- C9 counterexample: an event with an unknown day name but
`group_count = 0` does not make calendar building fail — the builder
loop `for i in range(0, e.groups)` never reads the unset `self.start`,
the event is skipped, and the build continues through the later events
(here producing `ev2`'s two groups). -/
theorem c9_counterexample :
    dayDate evBadDay0.day = none ∧ evBadDay0.groups = 0 ∧
    buildCalendar [evBadDay0, ev2] =
      .ok ((List.range 2).map (evGroup ev2 (600 * usPerMin))) :=
  ⟨rfl, rfl, by rfl⟩

/-- C9 (amended): if any event's day is not `Friday`/`Saturday`/`Sunday`
and that event has at least one group, calendar building fails rather
than continuing: the builder loop's first iteration reads the
`self.start` attribute that `Event.__init__` never set.  (With zero
groups the loop body never runs and the build continues.) -/
theorem c9_config_error (events : List Event) (e : Event) (he : e ∈ events)
    (hd : e.day ∉ (["Friday", "Saturday", "Sunday"] : List String))
    (hg : 0 < e.groups) :
    ∃ msg, buildCalendar events = .error msg := by
  induction events with
  | nil => cases he
  | cons a es ih =>
    rcases List.mem_cons.1 he with rfl | he2
    · refine ⟨"Unknown day for event " ++ e.event, ?_⟩
      simp [buildCalendar, buildEvent_error (dayDate_eq_none hd) hg.ne']
    · obtain ⟨msg, hmsg⟩ := ih he2
      cases hbe : buildEvent a with
      | error e2 => exact ⟨e2, by simp [buildCalendar, hbe]⟩
      | ok gs => exact ⟨msg, by simp [buildCalendar, hbe, hmsg]⟩

/-- Witness for C9 at a concrete event list. -/
theorem c9_config_error_witness :
    ∃ msg, buildCalendar [evBadDay] = .error msg :=
  c9_config_error [evBadDay] evBadDay (List.mem_singleton.mpr rfl) (by decide)
    (by decide)

/-! ### C8: the calendar builder's partition property -/

/-- C8 counterexample: the claim's "equal-length" part fails for `ev7`
(60 minutes, 7 groups: group 3 is one microsecond longer than group 0),
and its "partition" part fails for `ev0` (`group_count = 0` with a
non-degenerate window produces no groups at all). -/
theorem c8_counterexample :
    buildEvent ev7 = .ok ((List.range 7).map (evGroup ev7 (600 * usPerMin))) ∧
    (evGroup ev7 (600 * usPerMin) 3).1.stop - (evGroup ev7 (600 * usPerMin) 3).1.start ≠
      (evGroup ev7 (600 * usPerMin) 0).1.stop - (evGroup ev7 (600 * usPerMin) 0).1.start ∧
    buildEvent ev0 = .ok [] ∧ 0 < ev0.delta := by
  refine ⟨by rfl, by decide, by rfl, by decide⟩

/-- C8 (amended): for every successfully built event with at least one
group, the builder produces `group_count` groups whose windows are
contiguous, non-overlapping and together cover exactly `[start, end)`,
group `i` owning exactly the heat ids `i*areas+1 .. i*areas+areas`; the
windows are all of equal length whenever `group_count` divides the event
duration (at microsecond resolution). -/
theorem c8_partition (e : Event) (st en : Int)
    (hst : e.startTime = some st) (hen : e.endTime = some en) (hG : 0 < e.groups) :
    buildEvent e = .ok ((List.range e.groups).map (evGroup e st)) ∧
    (∀ i : Nat, (evGroup e st i).1.stop = (evGroup e st (i + 1)).1.start) ∧
    (∀ i j : Nat, ∀ x : Int, i < j → j < e.groups →
      inWindow (evGroup e st i).1 x → ¬ inWindow (evGroup e st j).1 x) ∧
    (∀ x : Int, (st ≤ x ∧ x < st + e.delta) ↔
      ∃ i, i < e.groups ∧ inWindow (evGroup e st i).1 x) ∧
    (∀ i : Nat, ∀ q : Int, q ∈ (evGroup e st i).2 ↔
      ((i : Int) * e.areas + 1 ≤ q ∧ q ≤ (i : Int) * e.areas + e.areas)) ∧
    (((e.groups : Int) ∣ e.delta) → ∀ i : Nat,
      (evGroup e st i).1.stop - (evGroup e st i).1.start = e.delta / (e.groups : Int)) := by
  have hGZ : ((e.groups : Int)) ≠ 0 := by exact_mod_cast hG.ne'
  refine ⟨?_, ?_, ?_, ?_, ?_, ?_⟩
  · obtain ⟨d, hd⟩ : ∃ d, dayDate e.day = some d := by
      cases hdd : dayDate e.day with
      | none => rw [startTime_none hdd] at hst; cases hst
      | some d => exact ⟨d, rfl⟩
    unfold buildEvent
    rw [hd]
    dsimp only
    rw [hst, hen]
  · intro i; rfl
  · intro i j x hij hjG hwi hwj
    have hd : 0 < e.delta := delta_pos_of_window e st hG hwi
    have hle : groupBound e st (i + 1) ≤ groupBound e st j :=
      groupBound_mono e st hd.le hG hij
    have hx1 : x < groupBound e st (i + 1) := hwi.2
    have hx2 : groupBound e st j ≤ x := hwj.1
    omega
  · intro x
    constructor
    · rintro ⟨h1, h2⟩
      have hd : 0 < e.delta := by
        have := h1.trans_lt h2; omega
      have mono : ∀ i j, i ≤ j → j ≤ e.groups → groupBound e st i ≤ groupBound e st j :=
        fun i j hij _ => groupBound_mono e st hd.le hG hij
      have h0 : groupBound e st 0 ≤ x := by rw [groupBound_zero]; exact h1
      have hn : x < groupBound e st e.groups := by rw [groupBound_last e st hG]; exact h2
      obtain ⟨i, hi, ha, hb⟩ := exists_interval mono h0 hn
      exact ⟨i, hi, ha, hb⟩
    · rintro ⟨i, hi, hw⟩
      have hd : 0 < e.delta := delta_pos_of_window e st hG hw
      have h1 : st ≤ groupBound e st i := by
        have := groupBound_mono e st hd.le hG (Nat.zero_le i)
        rwa [groupBound_zero] at this
      have h2 : groupBound e st (i + 1) ≤ st + e.delta := by
        have := groupBound_mono e st hd.le hG (Nat.succ_le_of_lt hi)
        rwa [groupBound_last e st hG] at this
      exact ⟨h1.trans hw.1, hw.2.trans_le h2⟩
  · intro i q
    simp only [evGroup, List.mem_map, List.mem_range]
    constructor
    · rintro ⟨j, hj, rfl⟩
      push_cast
      omega
    · rintro ⟨h1, h2⟩
      refine ⟨(q - (i : Int) * e.areas - 1).toNat, ?_, ?_⟩
      · omega
      · push_cast
        omega
  · intro hdvd i
    obtain ⟨q, hq⟩ := hdvd
    simp only [evGroup]
    unfold groupBound
    rw [hq]
    have e1 : ((i + 1 : Nat) : Int) * ((e.groups : Int) * q) = (e.groups : Int) * (((i : Int) + 1) * q) := by
      push_cast; ring
    have e2 : ((i : Nat) : Int) * ((e.groups : Int) * q) = (e.groups : Int) * ((i : Int) * q) := by
      ring
    rw [e1, e2, Int.mul_fdiv_cancel_left _ hGZ, Int.mul_fdiv_cancel_left _ hGZ,
      Int.mul_ediv_cancel_left q hGZ]
    ring

/-- Witness for C8 at the concrete event `ev2`. -/
theorem c8_partition_witness :
    buildEvent ev2 = .ok ((List.range 2).map (evGroup ev2 (600 * usPerMin))) ∧
    (evGroup ev2 (600 * usPerMin) 1).1.stop - (evGroup ev2 (600 * usPerMin) 1).1.start =
      ev2.delta / (ev2.groups : Int) :=
  have h := c8_partition ev2 (600 * usPerMin) (720 * usPerMin) (by decide) (by decide) (by decide)
  ⟨h.1, h.2.2.2.2.2 (by decide) 1⟩

/-! ### C6: the practice-buffer demotion -/

/-- C6 counterexample: with a single other group `h` at value 2 that
starts before the blocked group's start but ends after it (here `h` runs
1:30-1:50 against a block starting at 1:40), the buffer scan still
demotes `h` to 1, contradicting the claim's "no group ending at or after
g's start is demoted". -/
theorem c6_counterexample :
    bufferRow [⟨"444", 1, 1, "Friday", 90 * usPerMin, 110 * usPerMin⟩]
        ⟨"333", 1, 1, "Friday", 100 * usPerMin, 160 * usPerMin⟩ (fun _ => 2)
        ⟨"444", 1, 1, "Friday", 90 * usPerMin, 110 * usPerMin⟩ = 1 ∧
      (⟨"333", 1, 1, "Friday", 100 * usPerMin, 160 * usPerMin⟩ : Group).start ≤
        (⟨"444", 1, 1, "Friday", 90 * usPerMin, 110 * usPerMin⟩ : Group).stop := by
  exact ⟨by decide, by decide⟩

/-- C6 (amended): the buffer scan triggered by a hard block on `g` demotes
to 1 exactly the groups of the scanned list whose availability is still 2,
which start before `g`'s start, and which end later than 15 minutes before
`g`'s start — whether or not they end before `g`'s start; every other
entry is left unchanged. -/
theorem c6_buffer_exact (groups : List Group) (g : Group) :
    ∀ (a : Group → Int) (x : Group),
      bufferRow groups g a x =
        if x ∈ groups ∧ a x = 2 ∧ x.start < g.start ∧ g.start - bufferUs < x.stop
        then 1 else a x := by
  induction groups with
  | nil => intro a x; simp [bufferRow]
  | cons y ys ih =>
    intro a x
    have hstep : bufferRow (y :: ys) g a =
        bufferRow ys g
          (if a y = 2 ∧ y.start < g.start ∧ g.start - bufferUs < y.stop then upd a y 1 else a) := by
      simp [bufferRow]
    rw [hstep]
    by_cases hxy : x = y
    · subst hxy
      by_cases hc : a x = 2 ∧ x.start < g.start ∧ g.start - bufferUs < x.stop
      · rw [if_pos hc, ih]
        simp [upd, hc]
      · rw [if_neg hc, ih]
        simp only [List.mem_cons]
        by_cases hm : x ∈ ys
        · simp [hm, hc]
        · simp [hm, hc]
    · by_cases hcy : a y = 2 ∧ y.start < g.start ∧ g.start - bufferUs < y.stop
      · rw [if_pos hcy, ih]
        have h1 : upd a y 1 x = a x := by simp [upd, hxy]
        rw [h1]
        simp [List.mem_cons, hxy]
      · rw [if_neg hcy, ih]
        simp [List.mem_cons, hxy]

/-! ### C7: the parallel-conflict pass equals the two-phase reference -/

theorem main_side_disjoint : ∀ s ∈ main_events, s ∉ side_events := by decide

theorem innerForced_pos {a : Group → Int} {g x : Group} {q : List Group}
    (h : innerForced a g q x) : 0 < a x := by
  unfold innerForced at h
  rcases h with ⟨_, _, _, _, hx⟩ | ⟨rfl, _, _, _, _, hx, _⟩ <;> exact hx

theorem innerForced_cons {a : Group → Int} {g h₀ x : Group} {q : List Group} :
    innerForced a g (h₀ :: q) x ↔ innerForced a g [h₀] x ∨ innerForced a g q x := by
  unfold innerForced
  simp only [List.mem_cons, List.mem_singleton, List.not_mem_nil, or_false]
  constructor
  · rintro (⟨hm, h2⟩ | ⟨rfl, h, hm, h2⟩)
    · rcases hm with rfl | hm
      · exact Or.inl (Or.inl ⟨rfl, h2⟩)
      · exact Or.inr (Or.inl ⟨hm, h2⟩)
    · rcases hm with rfl | hm
      · exact Or.inl (Or.inr ⟨rfl, h, rfl, h2⟩)
      · exact Or.inr (Or.inr ⟨rfl, h, hm, h2⟩)
  · rintro ((⟨rfl, h2⟩ | ⟨rfl, h, rfl, h2⟩) | (⟨hm, h2⟩ | ⟨rfl, h, hm, h2⟩))
    · exact Or.inl ⟨Or.inl rfl, h2⟩
    · exact Or.inr ⟨rfl, h, Or.inl rfl, h2⟩
    · exact Or.inl ⟨Or.inr hm, h2⟩
    · exact Or.inr ⟨rfl, h, Or.inr hm, h2⟩

theorem parPairStep_eq (a c : Group → Int) (g h₀ : Group) (hg : g.event ∈ main_events)
    (F : Group → Prop) (hF0 : ∀ x, F x → 0 < a x)
    (hcF : ∀ x, F x → c x = -1) (hcN : ∀ x, ¬ F x → c x = a x) :
    (∀ x, (F x ∨ innerForced a g [h₀] x) → parPairStep g c h₀ x = -1) ∧
    (∀ x, ¬(F x ∨ innerForced a g [h₀] x) → parPairStep g c h₀ x = a x) := by
  by_cases hside : h₀.event ∈ side_events ∧ overlapTol g h₀
  case neg =>
    have hstep : parPairStep g c h₀ = c := by unfold parPairStep; rw [if_neg hside]
    rw [hstep]
    have hiff : ∀ x, innerForced a g [h₀] x → False := by
      intro x hx
      unfold innerForced at hx
      rcases hx with ⟨hm, hsx, hox, _⟩ | ⟨rfl, h, hh, hsx, hox, _⟩
      · rcases List.mem_singleton.1 hm with rfl
        exact hside ⟨hsx, hox⟩
      · rcases List.mem_singleton.1 hh with rfl
        exact hside ⟨hsx, hox⟩
    constructor
    · intro x hx
      rcases hx with h | h
      · exact hcF x h
      · exact (hiff x h).elim
    · intro x hx
      exact hcN x fun hF => hx (Or.inl hF)
  case pos =>
    obtain ⟨hs, ho⟩ := hside
    have hgh : g ≠ h₀ := by
      intro h
      rw [h] at hg
      exact main_side_disjoint _ hg hs
    have hc0 : ∀ y, c y = 0 ↔ a y = 0 := by
      intro y
      by_cases hF : F y
      · have h1 := hF0 y hF
        have h2 := hcF y hF
        constructor <;> intro h <;> omega
      · rw [hcN y hF]
    have hcp : ∀ y, 0 < c y ↔ (¬ F y ∧ 0 < a y) := by
      intro y
      by_cases hF : F y
      · have h2 := hcF y hF
        constructor
        · intro h; omega
        · rintro ⟨h1, _⟩; exact absurd hF h1
      · rw [hcN y hF]; tauto
    unfold parPairStep
    rw [if_pos ⟨hs, ho⟩]
    by_cases h1 : c g = 0 ∧ 0 < c h₀
    · have hag : a g = 0 := (hc0 g).1 h1.1
      have hFh : ¬ F h₀ := ((hcp h₀).1 h1.2).1
      have hah : 0 < a h₀ := ((hcp h₀).1 h1.2).2
      rw [if_pos h1]
      unfold parPairStep2
      have hcg := h1.1
      have hcond2 : ¬(0 < upd c h₀ (-1) g ∧ upd c h₀ (-1) h₀ = 0) := by
        rintro ⟨hcc, _⟩
        rw [show upd c h₀ (-1) g = c g from by simp [upd, hgh]] at hcc
        omega
      rw [if_neg hcond2]
      constructor
      · intro x hx
        rcases hx with hF | hin
        · have hxh : x ≠ h₀ := fun he => hFh (he ▸ hF)
          simp [upd, hxh, hcF x hF]
        · unfold innerForced at hin
          rcases hin with ⟨hm, _⟩ | ⟨rfl, h, hh, _, _, hpag, _⟩
          · rcases List.mem_singleton.1 hm with rfl
            simp [upd]
          · omega
      · intro x hx
        push_neg at hx
        have hxh : x ≠ h₀ := by
          rintro rfl
          exact hx.2 (Or.inl ⟨List.mem_singleton.2 rfl, hs, ho, hag, hah⟩)
        simp [upd, hxh, hcN x hx.1]
    · rw [if_neg h1]
      unfold parPairStep2
      by_cases h2 : 0 < c g ∧ c h₀ = 0
      · have hFg : ¬ F g := ((hcp g).1 h2.1).1
        have hpag : 0 < a g := ((hcp g).1 h2.1).2
        have hah0 : a h₀ = 0 := (hc0 h₀).1 h2.2
        rw [if_pos h2]
        constructor
        · intro x hx
          rcases hx with hF | hin
          · have hxg : x ≠ g := fun he => hFg (he ▸ hF)
            simp [upd, hxg, hcF x hF]
          · unfold innerForced at hin
            rcases hin with ⟨hm, _, _, hag2, _⟩ | ⟨rfl, _⟩
            · omega
            · simp [upd]
        · intro x hx
          push_neg at hx
          have hxg : x ≠ g := by
            rintro rfl
            exact hx.2 (Or.inr ⟨rfl, h₀, List.mem_singleton.2 rfl, hs, ho, hpag, hah0⟩)
          simp [upd, hxg, hcN x hx.1]
      · rw [if_neg h2]
        constructor
        · intro x hx
          rcases hx with hF | hin
          · exact hcF x hF
          · unfold innerForced at hin
            rcases hin with ⟨hm, hsx, hox, hag2, hax⟩ | ⟨rfl, h, hh, hsx, hox, hpag, hah0⟩
            · rcases List.mem_singleton.1 hm with rfl
              by_cases hFx : F x
              · exact hcF x hFx
              · exact absurd ⟨(hc0 g).2 hag2, (hcp x).2 ⟨hFx, hax⟩⟩ h1
            · rcases List.mem_singleton.1 hh with rfl
              by_cases hFg : F x
              · exact hcF x hFg
              · exact absurd ⟨(hcp x).2 ⟨hFg, hpag⟩, (hc0 h).2 hah0⟩ h2
        · intro x hx
          push_neg at hx
          exact hcN x hx.1

theorem parInner_eq (a : Group → Int) (g : Group) (hg : g.event ∈ main_events) :
    ∀ (q : List Group) (F : Group → Prop) (c : Group → Int),
      (∀ x, F x → 0 < a x) → (∀ x, F x → c x = -1) → (∀ x, ¬ F x → c x = a x) →
      (∀ x, (F x ∨ innerForced a g q x) → (q.foldl (parPairStep g) c) x = -1) ∧
      (∀ x, ¬(F x ∨ innerForced a g q x) → (q.foldl (parPairStep g) c) x = a x) := by
  intro q
  induction q with
  | nil =>
    intro F c hF0 hcF hcN
    constructor
    · intro x hx
      rcases hx with h | h
      · exact hcF x h
      · unfold innerForced at h
        simp at h
    · intro x hx
      exact hcN x fun hF => hx (Or.inl hF)
  | cons h₀ q' ih =>
    intro F c hF0 hcF hcN
    have step := parPairStep_eq a c g h₀ hg F hF0 hcF hcN
    have hF0' : ∀ x, (F x ∨ innerForced a g [h₀] x) → 0 < a x :=
      fun x hx => hx.elim (hF0 x) innerForced_pos
    have IH := ih (fun x => F x ∨ innerForced a g [h₀] x) (parPairStep g c h₀)
      hF0' step.1 step.2
    simp only [List.foldl_cons]
    constructor
    · intro x hx
      apply IH.1
      rw [innerForced_cons] at hx
      tauto
    · intro x hx
      apply IH.2
      rw [innerForced_cons] at hx
      tauto

theorem outerForced_pos {groups : List Group} {a : Group → Int} {p : List Group} {x : Group}
    (h : outerForced groups a p x) : 0 < a x := by
  unfold outerForced at h
  rcases h with ⟨_, _, g, _, _, _, _, hx⟩ | ⟨_, _, h, _, _, _, hx, _⟩ <;> exact hx

theorem outerForced_mem {groups : List Group} {a : Group → Int} {p : List Group} {x : Group}
    (hp : ∀ y ∈ p, y ∈ groups) (h : outerForced groups a p x) : x ∈ groups := by
  unfold outerForced at h
  rcases h with ⟨hm, _⟩ | ⟨hm, _⟩
  · exact hm
  · exact hp x hm

theorem outerForced_cons_main {groups : List Group} {a : Group → Int} {g₀ x : Group}
    {p : List Group} (hg₀ : g₀.event ∈ main_events) :
    outerForced groups a (g₀ :: p) x ↔
      innerForced a g₀ groups x ∨ outerForced groups a p x := by
  unfold outerForced innerForced
  simp only [List.mem_cons]
  constructor
  · rintro (⟨hm, hsx, g, hg, hgm, h2⟩ | ⟨hm, hxm, h2⟩)
    · rcases hg with rfl | hg
      · exact Or.inl (Or.inl ⟨hm, hsx, h2⟩)
      · exact Or.inr (Or.inl ⟨hm, hsx, g, hg, hgm, h2⟩)
    · rcases hm with rfl | hm
      · exact Or.inl (Or.inr ⟨rfl, h2⟩)
      · exact Or.inr (Or.inr ⟨hm, hxm, h2⟩)
  · rintro ((⟨hm, hsx, h2⟩ | ⟨rfl, h2⟩) | (⟨hm, hsx, g, hg, hgm, h2⟩ | ⟨hm, hxm, h2⟩))
    · exact Or.inl ⟨hm, hsx, g₀, Or.inl rfl, hg₀, h2⟩
    · exact Or.inr ⟨Or.inl rfl, hg₀, h2⟩
    · exact Or.inl ⟨hm, hsx, g, Or.inr hg, hgm, h2⟩
    · exact Or.inr ⟨Or.inr hm, hxm, h2⟩

theorem outerForced_cons_nonmain {groups : List Group} {a : Group → Int} {g₀ x : Group}
    {p : List Group} (hg₀ : g₀.event ∉ main_events) :
    outerForced groups a (g₀ :: p) x ↔ outerForced groups a p x := by
  unfold outerForced
  simp only [List.mem_cons]
  constructor
  · rintro (⟨hm, hsx, g, hg, hgm, h2⟩ | ⟨hm, hxm, h2⟩)
    · rcases hg with rfl | hg
      · exact absurd hgm hg₀
      · exact Or.inl ⟨hm, hsx, g, hg, hgm, h2⟩
    · rcases hm with rfl | hm
      · exact absurd hxm hg₀
      · exact Or.inr ⟨hm, hxm, h2⟩
  · rintro (⟨hm, hsx, g, hg, hgm, h2⟩ | ⟨hm, hxm, h2⟩)
    · exact Or.inl ⟨hm, hsx, g, Or.inr hg, hgm, h2⟩
    · exact Or.inr ⟨Or.inr hm, hxm, h2⟩

theorem parSentinel_eq (groups : List Group) (a : Group → Int) :
    ∀ (p : List Group) (F : Group → Prop) (c : Group → Int),
      (∀ x, F x → 0 < a x) → (∀ x, F x → c x = -1) → (∀ x, ¬ F x → c x = a x) →
      (∀ x, (F x ∨ outerForced groups a p x) → (p.foldl (parMainStep groups) c) x = -1) ∧
      (∀ x, ¬(F x ∨ outerForced groups a p x) → (p.foldl (parMainStep groups) c) x = a x) := by
  intro p
  induction p with
  | nil =>
    intro F c hF0 hcF hcN
    constructor
    · intro x hx
      rcases hx with h | h
      · exact hcF x h
      · unfold outerForced at h
        simp at h
    · intro x hx
      exact hcN x fun hF => hx (Or.inl hF)
  | cons g₀ p' ih =>
    intro F c hF0 hcF hcN
    simp only [List.foldl_cons]
    by_cases hg₀ : g₀.event ∈ main_events
    · have hstep : parMainStep groups c g₀ = groups.foldl (parPairStep g₀) c := by
        unfold parMainStep; rw [if_pos hg₀]
      rw [hstep]
      have inner := parInner_eq a g₀ hg₀ groups F c hF0 hcF hcN
      have hF0' : ∀ x, (F x ∨ innerForced a g₀ groups x) → 0 < a x :=
        fun x hx => hx.elim (hF0 x) innerForced_pos
      have IH := ih (fun x => F x ∨ innerForced a g₀ groups x)
        (groups.foldl (parPairStep g₀) c) hF0' inner.1 inner.2
      constructor
      · intro x hx
        apply IH.1
        rw [outerForced_cons_main hg₀] at hx
        tauto
      · intro x hx
        apply IH.2
        rw [outerForced_cons_main hg₀] at hx
        tauto
    · have hstep : parMainStep groups c g₀ = c := by
        unfold parMainStep; rw [if_neg hg₀]
      rw [hstep]
      have IH := ih F c hF0 hcF hcN
      constructor
      · intro x hx
        apply IH.1
        rw [outerForced_cons_nonmain hg₀] at hx
        exact hx
      · intro x hx
        apply IH.2
        rw [outerForced_cons_nonmain hg₀] at hx
        exact hx

theorem parFinalize_eq (groups : List Group) :
    ∀ (a : Group → Int) (x : Group),
      parFinalizeRow groups a x = if x ∈ groups ∧ a x = -1 then 0 else a x := by
  induction groups with
  | nil => intro a x; simp [parFinalizeRow]
  | cons y ys ih =>
    intro a x
    have hstep : parFinalizeRow (y :: ys) a =
        parFinalizeRow ys (if a y = -1 then upd a y 0 else a) := by
      simp [parFinalizeRow]
    rw [hstep]
    by_cases hxy : x = y
    · subst hxy
      by_cases hc : a x = -1
      · rw [if_pos hc, ih]
        simp [upd, hc]
      · rw [if_neg hc, ih]
        simp only [List.mem_cons]
        by_cases hm : x ∈ ys
        · simp [hm, hc]
        · simp [hm, hc]
    · by_cases hcy : a y = -1
      · rw [if_pos hcy, ih]
        have h1 : upd a y 0 x = a x := by simp [upd, hxy]
        rw [h1]
        simp [List.mem_cons, hxy]
      · rw [if_neg hcy, ih]
        simp [List.mem_cons, hxy]

theorem refForced_iff_outer (groups : List Group) (a : Group → Int) (x : Group) :
    refForced groups a x ↔ outerForced groups a groups x := by
  unfold refForced outerForced
  exact Iff.rfl

/-- C7 (confirmed): the in-place parallel-conflict pass with the `-1`
sentinel is order-independent — a block introduced during the pass never
itself forces a further entry, and the final availability row equals the
two-phase reference `refPassRow` that collects all blocks against the
pre-pass state and applies them at once.  The hypothesis restricts the
pre-pass state to the engine's value range (no entry is already `-1`). -/
theorem c7_parallel_two_phase (groups : List Group) (a : Group → Int)
    (ha : ∀ x, 0 ≤ a x) :
    ∀ x, parallelPassRow groups a x = refPassRow groups a x := by
  have hsent := parSentinel_eq groups a groups (fun _ => False)
    a (fun x h => h.elim) (fun x h => h.elim) (fun x _ => rfl)
  intro x
  unfold parallelPassRow refPassRow parSentinelRow
  rw [parFinalize_eq]
  by_cases hf : refForced groups a x
  · have hOut : outerForced groups a groups x := (refForced_iff_outer groups a x).1 hf
    have hx1 : (groups.foldl (parMainStep groups) a) x = -1 := hsent.1 x (Or.inr hOut)
    have hmem : x ∈ groups := outerForced_mem (fun y hy => hy) hOut
    rw [if_pos ⟨hmem, hx1⟩, if_pos hf]
  · have hOut : ¬ outerForced groups a groups x :=
      fun h => hf ((refForced_iff_outer groups a x).2 h)
    have hx1 : (groups.foldl (parMainStep groups) a) x = a x := by
      apply hsent.2
      rintro (h | h)
      · exact h
      · exact hOut h
    rw [hx1]
    have hne : ¬(x ∈ groups ∧ a x = -1) := by
      rintro ⟨_, h⟩
      have := ha x
      omega
    rw [if_neg hne, if_neg hf]

/-- Witness for C7: on a concrete overlapping main/side pair where the
main entry is hard-blocked, the sequential pass and the two-phase
reference agree (and both block the side entry). -/
theorem c7_parallel_two_phase_witness :
    parallelPassRow [gmC, gsC] aC gsC = refPassRow [gmC, gsC] aC gsC ∧
    parallelPassRow [gmC, gsC] aC gsC = 0 := by
  refine ⟨c7_parallel_two_phase [gmC, gsC] aC ?_ gsC, by decide⟩
  intro x
  unfold aC
  split <;> decide

/-! ### C2: the runner ranking's key precedence -/

theorem pair_sublist_of_pairwise {α : Type} {r : α → α → Prop} :
    ∀ {l : List α} {x y : α}, l.Pairwise r → x ∈ l → y ∈ l → x ≠ y → ¬ r y x →
      List.Sublist [x, y] l := by
  intro l
  induction l with
  | nil => intro x y _ hx _ _ _; cases hx
  | cons z rest ih =>
    intro x y hp hx hy hxy hnr
    rcases List.pairwise_cons.1 hp with ⟨hz, hrest⟩
    by_cases hzy : z = y
    · subst hzy
      rcases List.mem_cons.1 hx with rfl | hx2
      · exact absurd rfl hxy.symm
      · exact absurd (hz x hx2) hnr
    · have hy2 : y ∈ rest := (List.mem_cons.1 hy).resolve_left fun h => hzy h.symm
      by_cases hzx : z = x
      · subst hzx
        exact List.Sublist.cons₂ _ (List.singleton_sublist.2 hy2)
      · have hx2 : x ∈ rest := (List.mem_cons.1 hx).resolve_left fun h => hzx h.symm
        exact List.Sublist.cons z (ih hrest hx2 hy2 hxy hnr)

/-- C2 counterexample: two runner candidates tied on the availability keys
(no parallel group), where `yC2` has the higher running tier but the
larger all-time workload: the ranking places the lower-tier `xC2` first —
workload, not tier, is the more significant key in lines 291-297. -/
theorem c2_counterexample :
    rankRun stC2 gmC none [yC2, xC2] = [xC2, yC2] ∧
    xC2.run < yC2.run ∧
    stC2.avail xC2.name gmC = stC2.avail yC2.name gmC ∧
    xC2 ≠ yC2 := by
  refine ⟨by decide, by decide, by decide, by decide⟩

/-- C2 (amended): in the runner ranking, all-time workload (ascending)
takes precedence over the running tier; the tier decides only among
candidates additionally tied on workload.  For any two pool members tied
on the parallel-availability key (when a parallel group exists), on the
availability-for-`g` key and on all-time workload, the one with the
higher running tier is ranked before the other regardless of their
current streaks and of the shuffled input order. -/
theorem c2_runner_precedence (st : Sch) (g : Group) (par : Option Group)
    (pool : List Staff) (x y : Staff)
    (hx : x ∈ pool) (hy : y ∈ pool)
    (hpar : ∀ p, par = some p → st.avail x.name p = st.avail y.name p)
    (hav : st.avail x.name g = st.avail y.name g)
    (hwl : st.wl x.name = st.wl y.name)
    (hrun : y.run < x.run) :
    List.Sublist [x, y] (rankRun st g par pool) := by
  have hxy : x ≠ y := by
    intro h
    rw [h] at hrun
    exact absurd hrun (lt_irrefl _)
  have hx1 : x ∈ pool.insertionSort (fun a b => st.cwl a.name ≤ st.cwl b.name) :=
    (List.mem_insertionSort _).2 hx
  have hy1 : y ∈ pool.insertionSort (fun a b => st.cwl a.name ≤ st.cwl b.name) :=
    (List.mem_insertionSort _).2 hy
  haveI : IsTotal Staff (fun a b : Staff => b.run ≤ a.run) :=
    ⟨fun a b => le_total b.run a.run⟩
  haveI : IsTrans Staff (fun a b : Staff => b.run ≤ a.run) :=
    ⟨fun _ _ _ hab hbc => le_trans hbc hab⟩
  have hp2 := List.sorted_insertionSort (fun a b : Staff => b.run ≤ a.run)
    (pool.insertionSort (fun a b => st.cwl a.name ≤ st.cwl b.name))
  have hs2 : List.Sublist [x, y]
      ((pool.insertionSort (fun a b => st.cwl a.name ≤ st.cwl b.name)).insertionSort
        (fun a b => b.run ≤ a.run)) :=
    pair_sublist_of_pairwise hp2 ((List.mem_insertionSort _).2 hx1)
      ((List.mem_insertionSort _).2 hy1) hxy (not_le.2 hrun)
  have hs3 : List.Sublist [x, y]
      (((pool.insertionSort (fun a b => st.cwl a.name ≤ st.cwl b.name)).insertionSort
        (fun a b => b.run ≤ a.run)).insertionSort
          (fun a b => st.wl a.name ≤ st.wl b.name)) :=
    List.pair_sublist_insertionSort (le_of_eq hwl) hs2
  have hs4 : List.Sublist [x, y]
      ((((pool.insertionSort (fun a b => st.cwl a.name ≤ st.cwl b.name)).insertionSort
        (fun a b => b.run ≤ a.run)).insertionSort
          (fun a b => st.wl a.name ≤ st.wl b.name)).insertionSort
            (fun a b => st.avail b.name g ≤ st.avail a.name g)) :=
    List.pair_sublist_insertionSort (le_of_eq hav.symm) hs3
  rcases par with _ | p
  · simpa [rankRun] using hs4
  · have hs5 := List.pair_sublist_insertionSort
      (r := fun a b : Staff => st.avail a.name p ≤ st.avail b.name p)
      (le_of_eq (hpar p rfl)) hs4
    simpa [rankRun] using hs5

/-- Witness for C2's amended theorem at a concrete pool. -/
theorem c2_runner_precedence_witness :
    List.Sublist [xW2, yW2] (rankRun stW2 gmC none [yW2, xW2]) :=
  c2_runner_precedence stW2 gmC none [yW2, xW2] xW2 yW2 (by decide) (by decide)
    (fun p h => nomatch h) (by decide) (by decide) (by decide)

/-! ### C1: commitments can overlap; the verifier reports them -/

/-- C1 counterexample: on a schedule with two overlapping side-event
groups and one fully available staff member, the completed run records
two judge commitments for that staff member whose windows overlap
(`g555` starts before `g444` ends) — the claimed invariant does not hold;
the consistency check reports the violation but the program continues. -/
theorem c1_counterexample :
    (runPipeline (fun _ l => l) [g444, g555] (fun _ => [1]) (fun _ _ => 0) [stA]).toOption.map
        (fun o => (o.sched "A", o.inconsistent)) =
      some ([("j", g444), ("j", g555)], true) ∧
    g555.start < g444.stop := by
  exact ⟨by decide, by decide⟩

theorem rowViolation_iff (l : List (String × Group)) :
    rowViolation l = true ↔
      ∃ (i : Nat) (a b : String × Group), l[i]? = some a ∧ l[i + 1]? = some b ∧
        b.2.start < a.2.stop := by
  induction l with
  | nil => simp [rowViolation]
  | cons a tail ih =>
    cases tail with
    | nil =>
      simp only [rowViolation]
      constructor
      · intro h; cases h
      · rintro ⟨i, p, q, h1, h2, h3⟩
        rcases i with _ | j
        · simp at h2
        · simp at h1
    | cons b rest =>
      rw [show rowViolation (a :: b :: rest) =
        (decide (b.2.start < a.2.stop) || rowViolation (b :: rest)) from rfl]
      rw [Bool.or_eq_true, decide_eq_true_iff, ih]
      constructor
      · rintro (h | ⟨i, p, q, h1, h2, h3⟩)
        · exact ⟨0, a, b, rfl, by simp, h⟩
        · exact ⟨i + 1, p, q, by simpa using h1, by simpa using h2, h3⟩
      · rintro ⟨i, p, q, h1, h2, h3⟩
        rcases i with _ | j
        · simp only [List.getElem?_cons_zero, Option.some.injEq] at h1
          simp only [List.getElem?_cons_succ, List.getElem?_cons_zero,
            Option.some.injEq] at h2
          subst h1; subst h2
          exact Or.inl h3
        · right
          exact ⟨j, p, q, by simpa using h1, by simpa using h2, h3⟩

/-- C1 (amended): the time windows of two recorded commitments of the
same staff member may overlap (see `c1_counterexample`); what the program
guarantees is detection — the post-hoc consistency check flags an error
precisely when some staff member's commitment list contains an adjacent
pair whose later entry starts before the earlier entry ends.  Violations
are reported, not prevented. -/
theorem c1_consistency_check (staffs : List Staff)
    (sched : String → List (String × Group)) :
    consistencyErrors staffs sched = true ↔
      ∃ s ∈ staffs, ∃ (i : Nat) (a b : String × Group),
        (sched s.name)[i]? = some a ∧ (sched s.name)[i + 1]? = some b ∧
        b.2.start < a.2.stop := by
  unfold consistencyErrors
  rw [List.any_eq_true]
  constructor
  · rintro ⟨s, hs, hv⟩
    exact ⟨s, hs, (rowViolation_iff (sched s.name)).1 hv⟩
  · rintro ⟨s, hs, hv⟩
    exact ⟨s, hs, (rowViolation_iff (sched s.name)).2 hv⟩

/-! ### C3 and C10: the carryover branches -/

theorem forall_mem_append_single {α : Type} {P : α → Prop} {l : List α} {x : α}
    (hl : ∀ p ∈ l, P p) (hx : P x) : ∀ p ∈ l ++ [x], P p := by
  intro p hp
  rcases List.mem_append.1 hp with h | h
  · exact hl p h
  · rcases List.mem_singleton.1 h with rfl
    exact hx

theorem carryStaff_cases (role : String) (extra : Staff → Bool) (g : Group)
    (par : Option Group) (dur : Int) (prev : List Staff) (i : Nat)
    (acc : List Placed) (pool : List Staff) (st : Sch) :
    (∃ e, carryStaff role extra g par dur prev i acc pool st = .error e) ∨
    carryStaff role extra g par dur prev i acc pool st = .ok (acc, pool, st) ∨
    ∃ h : i < prev.length,
      extra (prev.get ⟨i, h⟩) = true ∧
      st.avail (prev.get ⟨i, h⟩).name g = 2 ∧
      st.cwl (prev.get ⟨i, h⟩).name + dur ≤ hourUs ∧
      (prev.get ⟨i, h⟩) ∈ pool ∧
      carryStaff role extra g par dur prev i acc pool st =
        .ok (acc ++ [⟨prev.get ⟨i, h⟩, i, .carry, st.avail (prev.get ⟨i, h⟩).name g,
              st.cwl (prev.get ⟨i, h⟩).name⟩],
             pool.erase (prev.get ⟨i, h⟩), place role g par dur (prev.get ⟨i, h⟩) st) := by
  unfold carryStaff
  by_cases h : i < prev.length
  · rw [dif_pos h]
    by_cases hg : extra (prev.get ⟨i, h⟩) = true ∧ st.avail (prev.get ⟨i, h⟩).name g = 2 ∧
        st.cwl (prev.get ⟨i, h⟩).name + dur ≤ hourUs
    · rw [if_pos hg]
      by_cases hm : prev.get ⟨i, h⟩ ∈ pool
      · rw [if_pos hm]
        exact Or.inr (Or.inr ⟨h, hg.1, hg.2.1, hg.2.2, hm, rfl⟩)
      · rw [if_neg hm]
        exact Or.inl ⟨_, rfl⟩
    · rw [if_neg hg]
      exact Or.inr (Or.inl rfl)
  · rw [dif_neg h]
    exact Or.inr (Or.inl rfl)

theorem carryJud_cases (g : Group) (par : Option Group) (dur : Int) (prev : List JSlot)
    (i : Nat) (acc : List JPlaced) (pool : List Staff) (st : Sch) :
    (∃ e, carryJud g par dur prev i acc pool st = .error e) ∨
    carryJud g par dur prev i acc pool st = .ok (acc, pool, st) ∨
    ∃ (h : i < prev.length) (ls : Staff),
      prev.get ⟨i, h⟩ = .staff ls ∧ prev.getLast? ≠ some JSlot.na ∧
      st.avail ls.name g = 2 ∧ st.cwl ls.name + dur ≤ hourUs ∧ ls ∈ pool ∧
      carryJud g par dur prev i acc pool st =
        .ok (acc ++ [⟨.staff ls, i, .carry, st.avail ls.name g, st.cwl ls.name⟩],
             pool.erase ls, place "j" g par dur ls st) := by
  unfold carryJud
  by_cases h : i < prev.length
  · rw [dif_pos h]
    by_cases hL : prev.getLast? ≠ some JSlot.na
    · rw [if_pos hL]
      cases hget : prev.get ⟨i, h⟩ with
      | na => exact Or.inl ⟨_, rfl⟩
      | staff ls =>
        dsimp only
        by_cases hg : st.avail ls.name g = 2 ∧ st.cwl ls.name + dur ≤ hourUs
        · rw [if_pos hg]
          by_cases hm : ls ∈ pool
          · rw [if_pos hm]
            exact Or.inr (Or.inr ⟨h, ls, hget, hL, hg.1, hg.2, hm, rfl⟩)
          · rw [if_neg hm]
            exact Or.inl ⟨_, rfl⟩
        · rw [if_neg hg]
          exact Or.inr (Or.inl rfl)
    · rw [if_neg hL]
      exact Or.inr (Or.inl rfl)
  · rw [dif_neg h]
    exact Or.inr (Or.inl rfl)

theorem fillStaffRole_carry (role : String) (extra : Staff → Bool) (g : Group)
    (par : Option Group) (dur : Int) (prev : List Staff) :
    ∀ (k i : Nat) (acc : List Placed) (pool : List Staff) (st : Sch)
      (out : List Placed × List Staff × Sch),
      fillStaffRole role extra g par dur prev k i acc pool st = .ok out →
      (∀ p ∈ acc, p.origin = Origin.carry →
        p.availBefore = 2 ∧ p.cwlBefore + dur ≤ hourUs ∧
        ∃ hs : p.slot < prev.length, prev.get ⟨p.slot, hs⟩ = p.who) →
      ∀ p ∈ out.1, p.origin = Origin.carry →
        p.availBefore = 2 ∧ p.cwlBefore + dur ≤ hourUs ∧
        ∃ hs : p.slot < prev.length, prev.get ⟨p.slot, hs⟩ = p.who := by
  intro k
  induction k with
  | zero =>
    intro i acc pool st out hok hacc
    rw [fillStaffRole] at hok
    cases hok
    exact hacc
  | succ k ih =>
    intro i acc pool st out hok hacc
    rw [fillStaffRole] at hok
    rcases carryStaff_cases role extra g par dur prev i acc pool st with
      ⟨e, hcc⟩ | hcc | ⟨h, hx, hv, hw, hm, hcc⟩
    · rw [hcc] at hok
      cases hok
    · rw [hcc] at hok
      dsimp only at hok
      by_cases hlen : acc.length < i + 1
      · rw [if_pos hlen] at hok
        cases pool with
        | nil => cases hok
        | cons chs rest =>
          exact ih _ _ _ _ _ hok
            (forall_mem_append_single hacc (fun hor => nomatch hor))
      · rw [if_neg hlen] at hok
        exact ih _ _ _ _ _ hok hacc
    · rw [hcc] at hok
      dsimp only at hok
      have hacc2 : ∀ p ∈ acc ++ [(⟨prev.get ⟨i, h⟩, i, .carry,
          st.avail (prev.get ⟨i, h⟩).name g, st.cwl (prev.get ⟨i, h⟩).name⟩ : Placed)],
          p.origin = Origin.carry →
            p.availBefore = 2 ∧ p.cwlBefore + dur ≤ hourUs ∧
            ∃ hs : p.slot < prev.length, prev.get ⟨p.slot, hs⟩ = p.who :=
        forall_mem_append_single hacc (fun _ => ⟨hv, hw, h, rfl⟩)
      by_cases hlen : (acc ++ [(⟨prev.get ⟨i, h⟩, i, .carry,
          st.avail (prev.get ⟨i, h⟩).name g, st.cwl (prev.get ⟨i, h⟩).name⟩ : Placed)]).length < i + 1
      · rw [if_pos hlen] at hok
        cases hpe : pool.erase (prev.get ⟨i, h⟩) with
        | nil =>
          rw [hpe] at hok
          cases hok
        | cons chs rest =>
          rw [hpe] at hok
          exact ih _ _ _ _ _ hok
            (forall_mem_append_single hacc2 (fun hor => nomatch hor))
      · rw [if_neg hlen] at hok
        exact ih _ _ _ _ _ hok hacc2

theorem fillJud_carry (g : Group) (par : Option Group) (dur : Int) (prev : List JSlot) :
    ∀ (k i : Nat) (acc : List JPlaced) (pool : List Staff) (st : Sch)
      (out : List JPlaced × List Staff × Sch),
      fillJud g par dur prev k i acc pool st = .ok out →
      (∀ p ∈ acc, p.origin = JOrigin.carry →
        p.availBefore = 2 ∧ p.cwlBefore + dur ≤ hourUs ∧
        ∃ hs : p.slot < prev.length, prev.get ⟨p.slot, hs⟩ = p.who) →
      ∀ p ∈ out.1, p.origin = JOrigin.carry →
        p.availBefore = 2 ∧ p.cwlBefore + dur ≤ hourUs ∧
        ∃ hs : p.slot < prev.length, prev.get ⟨p.slot, hs⟩ = p.who := by
  intro k
  induction k with
  | zero =>
    intro i acc pool st out hok hacc
    rw [fillJud] at hok
    cases hok
    exact hacc
  | succ k ih =>
    intro i acc pool st out hok hacc
    rw [fillJud] at hok
    by_cases hemp : pool = []
    · rw [if_pos hemp] at hok
      cases hok
      intro p hp hor
      rcases List.mem_append.1 hp with h1 | h1
      · exact hacc p h1 hor
      · rcases List.mem_map.1 h1 with ⟨j, _, rfl⟩
        exact absurd hor (by simp)
    · rw [if_neg hemp] at hok
      rcases carryJud_cases g par dur prev i acc pool st with
        ⟨e, hcc⟩ | hcc | ⟨h, ls, hget, hL, hv, hw, hm, hcc⟩
      · rw [hcc] at hok
        cases hok
      · rw [hcc] at hok
        dsimp only at hok
        by_cases hlen : acc.length < i + 1
        · rw [if_pos hlen] at hok
          cases pool with
          | nil => exact absurd rfl hemp
          | cons chs rest =>
            exact ih _ _ _ _ _ hok
              (forall_mem_append_single hacc (fun hor => nomatch hor))
        · rw [if_neg hlen] at hok
          exact ih _ _ _ _ _ hok hacc
      · rw [hcc] at hok
        dsimp only at hok
        have hacc2 : ∀ p ∈ acc ++ [(⟨.staff ls, i, .carry, st.avail ls.name g,
            st.cwl ls.name⟩ : JPlaced)],
            p.origin = JOrigin.carry →
              p.availBefore = 2 ∧ p.cwlBefore + dur ≤ hourUs ∧
              ∃ hs : p.slot < prev.length, prev.get ⟨p.slot, hs⟩ = p.who :=
          forall_mem_append_single hacc (fun _ => ⟨hv, hw, h, hget⟩)
        by_cases hlen : (acc ++ [(⟨.staff ls, i, .carry, st.avail ls.name g,
            st.cwl ls.name⟩ : JPlaced)]).length < i + 1
        · rw [if_pos hlen] at hok
          cases hpe : pool.erase ls with
          | nil =>
            rw [hpe] at hok
            cases hok
          | cons chs rest =>
            rw [hpe] at hok
            exact ih _ _ _ _ _ hok
              (forall_mem_append_single hacc2 (fun hor => nomatch hor))
        · rw [if_neg hlen] at hok
          exact ih _ _ _ _ _ hok hacc2

/-- C3 (confirmed): for every role, whenever a staff member is retained in
a slot by the carryover branch (ghost origin `carry`), the availability
read at the decision was exactly 2, the streak plus the group duration
did not exceed one hour, and the retained member is exactly the holder of
the same slot index in the previous group's list of the same role. -/
theorem c3_carryover_guard :
    (∀ (g : Group) (par : Option Group) (dur : Int) (prev : List Staff)
      (k : Nat) (pool : List Staff) (st : Sch) (out : List Placed × List Staff × Sch),
      fillScr g par dur prev k 0 [] pool st = .ok out →
      ∀ p ∈ out.1, p.origin = Origin.carry →
        p.availBefore = 2 ∧ p.cwlBefore + dur ≤ hourUs ∧
        ∃ hs : p.slot < prev.length, prev.get ⟨p.slot, hs⟩ = p.who) ∧
    (∀ (g : Group) (par : Option Group) (dur : Int) (prev : List Staff)
      (k : Nat) (pool : List Staff) (st : Sch) (out : List Placed × List Staff × Sch),
      fillRun g par dur prev k 0 [] pool st = .ok out →
      ∀ p ∈ out.1, p.origin = Origin.carry →
        p.availBefore = 2 ∧ p.cwlBefore + dur ≤ hourUs ∧
        ∃ hs : p.slot < prev.length, prev.get ⟨p.slot, hs⟩ = p.who) ∧
    (∀ (g : Group) (par : Option Group) (dur : Int) (prev : List JSlot)
      (k : Nat) (pool : List Staff) (st : Sch) (out : List JPlaced × List Staff × Sch),
      fillJud g par dur prev k 0 [] pool st = .ok out →
      ∀ p ∈ out.1, p.origin = JOrigin.carry →
        p.availBefore = 2 ∧ p.cwlBefore + dur ≤ hourUs ∧
        ∃ hs : p.slot < prev.length, prev.get ⟨p.slot, hs⟩ = p.who) := by
  refine ⟨?_, ?_, ?_⟩
  · intro g par dur prev k pool st out hok
    exact fillStaffRole_carry "s" (fun ls => decide (g.event ∈ ls.scr2)) g par dur prev
      k 0 [] pool st out hok (by intro p hp; cases hp)
  · intro g par dur prev k pool st out hok
    exact fillStaffRole_carry "r" (fun _ => true) g par dur prev
      k 0 [] pool st out hok (by intro p hp; cases hp)
  · intro g par dur prev k pool st out hok
    exact fillJud_carry g par dur prev k 0 [] pool st out hok (by intro p hp; cases hp)

/-- Witness for C3: concrete one-slot fills in which the carryover branch
fires for each role. -/
theorem c3_carryover_guard_witness :
    ((⟨alice, 0, .carry, 2, 0⟩ : Placed).availBefore = 2 ∧
      (⟨alice, 0, .carry, 2, 0⟩ : Placed).cwlBefore + 60 * usPerMin ≤ hourUs ∧
      ∃ hs : (⟨alice, 0, .carry, 2, 0⟩ : Placed).slot < [alice].length,
        [alice].get ⟨(⟨alice, 0, .carry, 2, 0⟩ : Placed).slot, hs⟩ =
          (⟨alice, 0, .carry, 2, 0⟩ : Placed).who) ∧
    ((⟨JSlot.staff alice, 0, .carry, 2, 0⟩ : JPlaced).availBefore = 2 ∧
      (⟨JSlot.staff alice, 0, .carry, 2, 0⟩ : JPlaced).cwlBefore + 60 * usPerMin ≤ hourUs ∧
      ∃ hs : (⟨JSlot.staff alice, 0, .carry, 2, 0⟩ : JPlaced).slot <
          [JSlot.staff alice].length,
        [JSlot.staff alice].get ⟨(⟨JSlot.staff alice, 0, .carry, 2, 0⟩ : JPlaced).slot, hs⟩ =
          (⟨JSlot.staff alice, 0, .carry, 2, 0⟩ : JPlaced).who) := by
  constructor
  · exact c3_carryover_guard.1 gmC none (60 * usPerMin) [alice] 1 [alice] stCar
      ([⟨alice, 0, .carry, 2, 0⟩], [], place "s" gmC none (60 * usPerMin) alice stCar)
      (by rfl) ⟨alice, 0, .carry, 2, 0⟩ (by simp) (by rfl)
  · exact c3_carryover_guard.2.2 gmC none (60 * usPerMin) [JSlot.staff alice] 1 [alice] stCar
      ([⟨JSlot.staff alice, 0, .carry, 2, 0⟩], [], place "j" gmC none (60 * usPerMin) alice stCar)
      (by rfl) ⟨JSlot.staff alice, 0, .carry, 2, 0⟩ (by simp) (by rfl)

theorem carryJud_na (g : Group) (par : Option Group) (dur : Int) (prev : List JSlot)
    (hlast : prev.getLast? = some JSlot.na) (i : Nat) (acc : List JPlaced)
    (pool : List Staff) (st : Sch) :
    carryJud g par dur prev i acc pool st = .ok (acc, pool, st) := by
  unfold carryJud
  by_cases h : i < prev.length
  · rw [dif_pos h, if_neg (by simp [hlast])]
  · rw [dif_neg h]

theorem fillJud_na_aux (g : Group) (par : Option Group) (dur : Int) (prev : List JSlot)
    (hlast : prev.getLast? = some JSlot.na) :
    ∀ (k i : Nat) (acc : List JPlaced) (pool : List Staff) (st : Sch)
      (out : List JPlaced × List Staff × Sch),
      fillJud g par dur prev k i acc pool st = .ok out →
      (∀ p ∈ acc, p.origin ≠ JOrigin.carry) →
      ∀ p ∈ out.1, p.origin ≠ JOrigin.carry := by
  intro k
  induction k with
  | zero =>
    intro i acc pool st out hok hacc
    rw [fillJud] at hok
    cases hok
    exact hacc
  | succ k ih =>
    intro i acc pool st out hok hacc
    rw [fillJud] at hok
    by_cases hemp : pool = []
    · rw [if_pos hemp] at hok
      cases hok
      intro p hp
      rcases List.mem_append.1 hp with h1 | h1
      · exact hacc p h1
      · rcases List.mem_map.1 h1 with ⟨j, _, rfl⟩
        simp
    · rw [if_neg hemp, carryJud_na g par dur prev hlast] at hok
      dsimp only at hok
      by_cases hlen : acc.length < i + 1
      · rw [if_pos hlen] at hok
        cases pool with
        | nil => exact absurd rfl hemp
        | cons chs rest =>
          exact ih _ _ _ _ _ hok
            (forall_mem_append_single hacc (fun hor => nomatch hor))
      · rw [if_neg hlen] at hok
        exact ih _ _ _ _ _ hok hacc

/-- C10 (confirmed): when the previous group's judge list ends with the
`"NA"` placeholder, the guard at line 339 disables judge carryover for
every slot of the current group — every filled slot comes from the ranked
pool (or is an `"NA"` placeholder), even when the same slot's previous
holder is a real staff member at availability 2 with streak headroom. -/
theorem c10_judges_no_carryover (g : Group) (par : Option Group) (dur : Int)
    (prev : List JSlot) (hlast : prev.getLast? = some JSlot.na)
    (k : Nat) (pool : List Staff) (st : Sch) (out : List JPlaced × List Staff × Sch)
    (hok : fillJud g par dur prev k 0 [] pool st = .ok out) :
    ∀ p ∈ out.1, p.origin ≠ JOrigin.carry :=
  fillJud_na_aux g par dur prev hlast k 0 [] pool st out hok (by intro p hp; cases hp)

/-- Witness for C10: the previous judge list `[staff alice, NA]` ends with
`"NA"`; although alice is fully available with streak headroom and holds
slot 0, slot 0 is filled from the pool (origin `drawn`). -/
theorem c10_judges_no_carryover_witness :
    (⟨JSlot.staff alice, 0, JOrigin.drawn, 2, 0⟩ : JPlaced).origin ≠ JOrigin.carry :=
  c10_judges_no_carryover gmC none (60 * usPerMin) [JSlot.staff alice, JSlot.na]
    (by rfl) 2 [alice, bob] stCar
    ([⟨JSlot.staff alice, 0, JOrigin.drawn, 2, 0⟩, ⟨JSlot.staff bob, 1, JOrigin.drawn, 2, 0⟩],
      [], place "j" gmC none (60 * usPerMin) bob (place "j" gmC none (60 * usPerMin) alice stCar))
    (by rfl) ⟨JSlot.staff alice, 0, JOrigin.drawn, 2, 0⟩ (by simp)

/-! ### C4: shortfall policy per role -/

theorem place_avail_self (role : String) (g : Group) (par : Option Group) (dur : Int)
    (s : Staff) (st : Sch) : (place role g par dur s st).avail s.name g = 0 := by
  cases par <;> simp [place, upd2]

theorem place_avail_other (role : String) (g : Group) (par : Option Group) (dur : Int)
    (s : Staff) (st : Sch) {n : String} (hn : n ≠ s.name) (h : Group) :
    (place role g par dur s st).avail n h = st.avail n h := by
  cases par <;> simp [place, upd2, hn]

theorem rankScr_perm (st : Sch) (g : Group) (par : Option Group) (l : List Staff) :
    List.Perm (rankScr st g par l) l := by
  unfold rankScr
  cases par with
  | none =>
    exact (List.perm_insertionSort _ _).trans ((List.perm_insertionSort _ _).trans
      ((List.perm_insertionSort _ _).trans (List.perm_insertionSort _ _)))
  | some p =>
    exact (List.perm_insertionSort _ _).trans ((List.perm_insertionSort _ _).trans
      ((List.perm_insertionSort _ _).trans ((List.perm_insertionSort _ _).trans
        (List.perm_insertionSort _ _))))

theorem rankRun_perm (st : Sch) (g : Group) (par : Option Group) (l : List Staff) :
    List.Perm (rankRun st g par l) l := by
  unfold rankRun
  cases par with
  | none =>
    exact (List.perm_insertionSort _ _).trans ((List.perm_insertionSort _ _).trans
      ((List.perm_insertionSort _ _).trans (List.perm_insertionSort _ _)))
  | some p =>
    exact (List.perm_insertionSort _ _).trans ((List.perm_insertionSort _ _).trans
      ((List.perm_insertionSort _ _).trans ((List.perm_insertionSort _ _).trans
        (List.perm_insertionSort _ _))))

theorem rankJud_perm (st : Sch) (g : Group) (par : Option Group) (l : List Staff) :
    List.Perm (rankJud st g par l) l := by
  unfold rankJud
  cases par with
  | none =>
    exact (List.perm_insertionSort _ _).trans ((List.perm_insertionSort _ _).trans
      (List.perm_insertionSort _ _))
  | some p =>
    exact (List.perm_insertionSort _ _).trans ((List.perm_insertionSort _ _).trans
      ((List.perm_insertionSort _ _).trans (List.perm_insertionSort _ _)))

theorem countNA_append (l l' : List JPlaced) :
    countNA (l ++ l') = countNA l + countNA l' := by
  simp [countNA, List.filter_append]

theorem countNA_staff_single (l : List JPlaced) (x : JPlaced) (hx : x.who ≠ JSlot.na) :
    countNA (l ++ [x]) = countNA l := by
  rw [countNA_append]
  simp [countNA, hx]

theorem countNA_na_map (n : Nat) (i : Nat) :
    countNA ((List.range n).map fun j => (⟨.na, i + j, .unfilled, 0, 0⟩ : JPlaced)) = n := by
  unfold countNA
  rw [List.filter_eq_self.mpr]
  · simp
  · intro a ha
    rcases List.mem_map.1 ha with ⟨j, _, rfl⟩
    simp

theorem scrStage_short (sh : Nat → List Staff → List Staff) (staffs : List Staff)
    (hcount : Nat) (g : Group) (par : Option Group) (prev : List Staff) (seed : Nat)
    (st : Sch)
    (hshort : (staffs.filter fun s => decide (0 < st.avail s.name g ∧
        (g.event ∈ s.scr2 ∨ g.event ∈ s.scr1))).length < hcount * scramblers_main) :
    scrStage sh staffs hcount g par prev seed st = .error (scrMsg g) := by
  unfold scrStage
  rw [if_pos hshort]

theorem runStage_short (sh : Nat → List Staff → List Staff) (staffs : List Staff)
    (hcount : Nat) (g : Group) (par : Option Group) (prev : List Staff) (seed : Nat)
    (st : Sch)
    (hshort : (staffs.filter fun s => decide (0 < st.avail s.name g ∧ 0 < s.run)).length <
      hcount * runners_main) :
    runStage sh staffs hcount g par prev seed st = .error (runnersMsg g) := by
  unfold runStage
  rw [if_pos hshort]

theorem dayReset_avail (g : Group) (est : EngSt) :
    (dayReset g est).sch.avail = est.sch.avail := by
  unfold dayReset
  cases est.lastg with
  | none => rfl
  | some lg =>
    dsimp only
    by_cases hd : g.day ≠ lg.day
    · rw [if_pos hd]
    · rw [if_neg hd]

theorem processGroup_scr_abort (sh : Nat → List Staff → List Staff) (staffs : List Staff)
    (heats : Group → List Int) (groups : List Group) (g : Group) (est : EngSt)
    (hmain : g.event ∈ main_events)
    (hshort : (staffs.filter fun s => decide (0 < est.sch.avail s.name g ∧
        (g.event ∈ s.scr2 ∨ g.event ∈ s.scr1))).length <
      (heats g).length * scramblers_main) :
    processGroup sh staffs heats groups g est = .error (scrMsg g) := by
  unfold processGroup
  rw [if_pos hmain]
  dsimp only
  have hstage := scrStage_short sh staffs ((heats g).length) g
    (groups.find? fun hh => decide (hh.event ∈ side_events ∧ overlapTol g hh))
    (if (dayReset g est).lastg.isSome then (dayReset g est).lastScr else [])
    (dayReset g est).seed (dayReset g est).sch
    (by rw [dayReset_avail]; exact hshort)
  rw [hstage]
  rfl

theorem carryJud_ok (g : Group) (par : Option Group) (dur : Int) (prev : List JSlot)
    (i : Nat) (acc : List JPlaced) (pool : List Staff) (st : Sch)
    (hwf : ∀ sl ∈ prev, sl = JSlot.na → prev.getLast? = some JSlot.na)
    (hinv : ∀ s : Staff, JSlot.staff s ∈ prev → st.avail s.name g = 2 → s ∈ pool) :
    carryJud g par dur prev i acc pool st = .ok (acc, pool, st) ∨
    ∃ (h : i < prev.length) (ls : Staff),
      prev.get ⟨i, h⟩ = .staff ls ∧ st.avail ls.name g = 2 ∧
      st.cwl ls.name + dur ≤ hourUs ∧ ls ∈ pool ∧
      carryJud g par dur prev i acc pool st =
        .ok (acc ++ [⟨.staff ls, i, .carry, st.avail ls.name g, st.cwl ls.name⟩],
             pool.erase ls, place "j" g par dur ls st) := by
  unfold carryJud
  by_cases h : i < prev.length
  · rw [dif_pos h]
    by_cases hL : prev.getLast? ≠ some JSlot.na
    · rw [if_pos hL]
      cases hget : prev.get ⟨i, h⟩ with
      | na =>
        have hmem : JSlot.na ∈ prev := hget ▸ List.get_mem prev i h
        exact absurd (hwf _ hmem rfl) hL
      | staff ls =>
        dsimp only
        have hmem : JSlot.staff ls ∈ prev := hget ▸ List.get_mem prev i h
        by_cases hg : st.avail ls.name g = 2 ∧ st.cwl ls.name + dur ≤ hourUs
        · rw [if_pos hg, if_pos (hinv ls hmem hg.1)]
          exact Or.inr ⟨h, ls, hget, hg.1, hg.2, hinv ls hmem hg.1, rfl⟩
        · rw [if_neg hg]
          exact Or.inl rfl
    · rw [if_neg hL]
      exact Or.inl rfl
  · rw [dif_neg h]
    exact Or.inl rfl

theorem fillJud_total (g : Group) (par : Option Group) (dur : Int) (prev : List JSlot)
    (hwf : ∀ sl ∈ prev, sl = JSlot.na → prev.getLast? = some JSlot.na) :
    ∀ (k i : Nat) (acc : List JPlaced) (pool : List Staff) (st : Sch),
      acc.length = i →
      (∀ s : Staff, JSlot.staff s ∈ prev → st.avail s.name g = 2 → s ∈ pool) →
      pool.length ≤ k →
      ∃ pl st2, fillJud g par dur prev k i acc pool st = .ok (pl, [], st2) ∧
        pl.length = acc.length + k ∧
        countNA pl = countNA acc + (k - pool.length) := by
  intro k
  induction k with
  | zero =>
    intro i acc pool st hlen hinv hple
    have hpe : pool = [] := List.eq_nil_of_length_eq_zero (Nat.le_zero.1 hple)
    subst hpe
    exact ⟨acc, st, by rw [fillJud], by omega, by simp⟩
  | succ k ih =>
    intro i acc pool st hlen hinv hple
    by_cases hemp : pool = []
    · subst hemp
      refine ⟨acc ++ (List.range (k + 1)).map (fun j => ⟨.na, i + j, .unfilled, 0, 0⟩),
        st, ?_, ?_, ?_⟩
      · rw [fillJud, if_pos rfl]
      · simp
      · rw [countNA_append, countNA_na_map]
        simp
    · rcases carryJud_ok g par dur prev i acc pool st hwf hinv with
        hcc | ⟨h, ls, hget, hv, hw, hm, hcc⟩
      · cases pool with
        | nil => exact absurd rfl hemp
        | cons chs rest =>
          have hinv2 : ∀ s : Staff, JSlot.staff s ∈ prev →
              (place "j" g par dur chs st).avail s.name g = 2 → s ∈ rest := by
            intro s hs hav
            by_cases hn : s.name = chs.name
            · rw [hn, place_avail_self] at hav
              cases hav
            · rw [place_avail_other _ _ _ _ _ _ hn] at hav
              rcases List.mem_cons.1 (hinv s hs hav) with rfl | h2
              · exact absurd rfl hn
              · exact h2
          obtain ⟨pl, st2, hfok, hplen, hcnt⟩ := ih (i + 1)
            (acc ++ [⟨.staff chs, i, .drawn, st.avail chs.name g, st.cwl chs.name⟩])
            rest (place "j" g par dur chs st) (by simp [hlen]) hinv2
            (by simp at hple; omega)
          refine ⟨pl, st2, ?_, ?_, ?_⟩
          · rw [fillJud, if_neg hemp, hcc]
            dsimp only
            rw [if_pos (by omega : acc.length < i + 1)]
            exact hfok
          · rw [hplen]
            simp only [List.length_append, List.length_cons, List.length_nil]
            omega
          · rw [hcnt, countNA_staff_single _ _ (by simp)]
            simp only [List.length_cons]
            omega
      · have hplpos : 0 < pool.length := List.length_pos.2 hemp
        have herase : (pool.erase ls).length = pool.length - 1 :=
          List.length_erase_of_mem hm
        have hinv2 : ∀ s : Staff, JSlot.staff s ∈ prev →
            (place "j" g par dur ls st).avail s.name g = 2 → s ∈ pool.erase ls := by
          intro s hs hav
          by_cases hn : s.name = ls.name
          · rw [hn, place_avail_self] at hav
            cases hav
          · rw [place_avail_other _ _ _ _ _ _ hn] at hav
            exact (List.mem_erase_of_ne (fun he => hn (congrArg Staff.name he))).2
              (hinv s hs hav)
        obtain ⟨pl, st2, hfok, hplen, hcnt⟩ := ih (i + 1)
          (acc ++ [⟨.staff ls, i, .carry, st.avail ls.name g, st.cwl ls.name⟩])
          (pool.erase ls) (place "j" g par dur ls st) (by simp [hlen]) hinv2
          (by omega)
        refine ⟨pl, st2, ?_, ?_, ?_⟩
        · rw [fillJud, if_neg hemp, hcc]
          dsimp only
          rw [if_neg (by simp [hlen] : ¬ (acc ++
            [(⟨.staff ls, i, .carry, st.avail ls.name g, st.cwl ls.name⟩ : JPlaced)]).length < i + 1)]
          exact hfok
        · rw [hplen]
          simp only [List.length_append, List.length_cons, List.length_nil]
          omega
        · rw [hcnt, countNA_staff_single _ _ (by simp)]
          omega

theorem judStage_soft (sh : Nat → List Staff → List Staff) (staffs : List Staff)
    (hcount : Nat) (g : Group) (par : Option Group) (prevJ : List JSlot) (seed : Nat)
    (st : Sch) (quota : Nat)
    (hq : judges_main hcount = some quota)
    (hsh : List.Perm (sh seed (staffs.filter fun s => decide (0 < st.avail s.name g)))
      (staffs.filter fun s => decide (0 < st.avail s.name g)))
    (hwf : ∀ sl ∈ prevJ, sl = JSlot.na → prevJ.getLast? = some JSlot.na)
    (hstaffs : ∀ s : Staff, JSlot.staff s ∈ prevJ → s ∈ staffs)
    (hshort : (staffs.filter fun s => decide (0 < st.avail s.name g)).length < quota) :
    ∃ pl st2, judStage sh staffs hcount g par prevJ seed st = .ok (pl, st2, seed + 1) ∧
      pl.length = quota ∧
      countNA pl = quota - (staffs.filter fun s => decide (0 < st.avail s.name g)).length := by
  have hrperm : List.Perm
      (rankJud st g par (sh seed (staffs.filter fun s => decide (0 < st.avail s.name g))))
      (staffs.filter fun s => decide (0 < st.avail s.name g)) :=
    (rankJud_perm st g par _).trans hsh
  have hinv : ∀ s : Staff, JSlot.staff s ∈ prevJ → st.avail s.name g = 2 →
      s ∈ rankJud st g par (sh seed (staffs.filter fun s => decide (0 < st.avail s.name g))) := by
    intro s hs hav
    apply hrperm.mem_iff.2
    exact List.mem_filter.2 ⟨hstaffs s hs, by simp [hav]⟩
  obtain ⟨pl, st2, hfok, hplen, hcnt⟩ := fillJud_total g par (g.stop - g.start) prevJ hwf
    quota 0 [] _ st rfl hinv (by rw [hrperm.length_eq]; omega)
  refine ⟨pl, st2, ?_, by simpa using hplen, ?_⟩
  · unfold judStage
    rw [hq]
    dsimp only
    rw [hfok]
    rfl
  · rw [hcnt, hrperm.length_eq]
    simp [countNA]

theorem runMain_error_head (sh : Nat → List Staff → List Staff) (staffs : List Staff)
    (heats : Group → List Int) (groups : List Group) (gs : List Group) (g : Group)
    (est : EngSt) (e : String)
    (h : processGroup sh staffs heats groups g est = .error e) :
    runMain sh staffs heats groups (g :: gs) est = .error e := by
  rw [runMain, h]
  rfl

/-- C4 (confirmed): a scrambler pool smaller than `heats*3` aborts the
whole group step with the message naming the offending group (and the
runner stage likewise); a judge pool smaller than the quota does not
abort — the stage completes with exactly the quota of entries, the
shortfall filled with `"NA"` placeholders; a group-step error aborts the
run.  The judge conjunct assumes the engine's invariants on the previous
judge list (`"NA"` only as a suffix, previous judges drawn from the
roster) and that the shuffle permutes. -/
theorem c4_shortfall_policy :
    (∀ (sh : Nat → List Staff → List Staff) (staffs : List Staff)
       (heats : Group → List Int) (groups : List Group) (g : Group) (est : EngSt),
      g.event ∈ main_events →
      (staffs.filter fun s => decide (0 < est.sch.avail s.name g ∧
          (g.event ∈ s.scr2 ∨ g.event ∈ s.scr1))).length <
        (heats g).length * scramblers_main →
      processGroup sh staffs heats groups g est = .error (scrMsg g)) ∧
    (∀ (sh : Nat → List Staff → List Staff) (staffs : List Staff) (hcount : Nat)
       (g : Group) (par : Option Group) (prev : List Staff) (seed : Nat) (st : Sch),
      (staffs.filter fun s => decide (0 < st.avail s.name g ∧ 0 < s.run)).length <
        hcount * runners_main →
      runStage sh staffs hcount g par prev seed st = .error (runnersMsg g)) ∧
    (∀ (sh : Nat → List Staff → List Staff) (staffs : List Staff) (hcount : Nat)
       (g : Group) (par : Option Group) (prevJ : List JSlot) (seed : Nat) (st : Sch)
       (quota : Nat),
      judges_main hcount = some quota →
      List.Perm (sh seed (staffs.filter fun s => decide (0 < st.avail s.name g)))
        (staffs.filter fun s => decide (0 < st.avail s.name g)) →
      (∀ sl ∈ prevJ, sl = JSlot.na → prevJ.getLast? = some JSlot.na) →
      (∀ s : Staff, JSlot.staff s ∈ prevJ → s ∈ staffs) →
      (staffs.filter fun s => decide (0 < st.avail s.name g)).length < quota →
      ∃ pl st2, judStage sh staffs hcount g par prevJ seed st = .ok (pl, st2, seed + 1) ∧
        pl.length = quota ∧
        countNA pl = quota - (staffs.filter fun s => decide (0 < st.avail s.name g)).length) ∧
    (∀ (sh : Nat → List Staff → List Staff) (staffs : List Staff)
       (heats : Group → List Int) (groups : List Group) (gs : List Group) (g : Group)
       (est : EngSt) (e : String),
      processGroup sh staffs heats groups g est = .error e →
      runMain sh staffs heats groups (g :: gs) est = .error e) :=
  ⟨fun sh staffs heats groups g est hmain hshort =>
      processGroup_scr_abort sh staffs heats groups g est hmain hshort,
   fun sh staffs hcount g par prev seed st hshort =>
      runStage_short sh staffs hcount g par prev seed st hshort,
   fun sh staffs hcount g par prevJ seed st quota hq hsh hwf hstaffs hshort =>
      judStage_soft sh staffs hcount g par prevJ seed st quota hq hsh hwf hstaffs hshort,
   fun sh staffs heats groups gs g est e h =>
      runMain_error_head sh staffs heats groups gs g est e h⟩

/-- Witness for C4 at concrete inputs: with an empty roster the scrambler
check aborts the group step and the run, while the judge stage completes
with ten `"NA"` placeholders. -/
theorem c4_shortfall_policy_witness :
    processGroup (fun _ l => l) [] (fun _ => [1]) [] gmC
      (engInit (fun _ _ => 2) (fun _ => [])) = .error (scrMsg gmC) ∧
    runStage (fun _ l => l) [] 1 gmC none [] 0 stCar = .error (runnersMsg gmC) ∧
    (∃ pl st2, judStage (fun _ l => l) [] 1 gmC none [] 0 stCar = .ok (pl, st2, 1) ∧
      pl.length = 10 ∧ countNA pl = 10 - ([] : List Staff).length) ∧
    runMain (fun _ l => l) [] (fun _ => [1]) [] [gmC]
      (engInit (fun _ _ => 2) (fun _ => [])) = .error (scrMsg gmC) := by
  refine ⟨?_, ?_, ?_, ?_⟩
  · exact c4_shortfall_policy.1 (fun _ l => l) [] (fun _ => [1]) [] gmC _ (by decide) (by decide)
  · exact c4_shortfall_policy.2.1 (fun _ l => l) [] 1 gmC none [] 0 stCar (by decide)
  · have h := c4_shortfall_policy.2.2.1 (fun _ l => l) [] 1 gmC none [] 0 stCar 10
      (by decide) (List.Perm.refl _) (by intro sl hsl; cases hsl) (by intro s hs; cases hs)
      (by decide)
    simpa using h
  · exact c4_shortfall_policy.2.2.2 (fun _ l => l) [] (fun _ => [1]) [] [] gmC _ _
      (c4_shortfall_policy.1 (fun _ l => l) [] (fun _ => [1]) [] gmC _ (by decide) (by decide))

/-! ### C5: quotas and distinctness of a completed run -/

theorem fillStaffRole_spec (role : String) (extra : Staff → Bool) (g : Group)
    (par : Option Group) (dur : Int) (prev : List Staff) :
    ∀ (k i : Nat) (acc : List Placed) (pool : List Staff) (st : Sch)
      (out : List Placed × List Staff × Sch) (P : List String),
      fillStaffRole role extra g par dur prev k i acc pool st = .ok out →
      acc.length = i →
      (pool.map Staff.name).Nodup →
      (∀ s ∈ pool, 0 < st.avail s.name g) →
      P.Nodup →
      (∀ n ∈ P, st.avail n g = 0) →
      ∃ new, out.1 = acc ++ new ∧ new.length = k ∧
        (P ++ pNames new).Nodup ∧
        (∀ n ∈ P ++ pNames new, out.2.2.avail n g = 0) := by
  intro k
  induction k with
  | zero =>
    intro i acc pool st out P hok hlen hpn hpa hP hPz
    rw [fillStaffRole] at hok
    cases hok
    exact ⟨[], by simp, rfl, by simpa [pNames] using hP, by simpa [pNames] using hPz⟩
  | succ k ih =>
    intro i acc pool st out P hok hlen hpn hpa hP hPz
    rw [fillStaffRole] at hok
    rcases carryStaff_cases role extra g par dur prev i acc pool st with
      ⟨e, hcc⟩ | hcc | ⟨h, hx, hv, hw, hm, hcc⟩
    · rw [hcc] at hok
      cases hok
    · rw [hcc] at hok
      dsimp only at hok
      rw [if_pos (by omega : acc.length < i + 1)] at hok
      cases pool with
      | nil => cases hok
      | cons chs rest =>
        have hchsa : 0 < st.avail chs.name g := hpa chs (List.mem_cons_self chs rest)
        have hchsP : chs.name ∉ P := fun hc => by
          have := hPz chs.name hc
          omega
        have hpn2 : (rest.map Staff.name).Nodup := (List.nodup_cons.1 hpn).2
        have hchsr : chs.name ∉ rest.map Staff.name := (List.nodup_cons.1 hpn).1
        have hpa2 : ∀ s ∈ rest, 0 < (place role g par dur chs st).avail s.name g := by
          intro s hs
          have hne : s.name ≠ chs.name := fun he =>
            hchsr (he ▸ List.mem_map_of_mem Staff.name hs)
          rw [place_avail_other _ _ _ _ _ _ hne]
          exact hpa s (List.mem_cons_of_mem chs hs)
        have hP2 : (P ++ [chs.name]).Nodup := by
          rw [List.nodup_append]
          exact ⟨hP, List.nodup_singleton _, by simpa using hchsP⟩
        have hPz2 : ∀ n ∈ P ++ [chs.name], (place role g par dur chs st).avail n g = 0 := by
          intro n hn
          rcases List.mem_append.1 hn with h1 | h1
          · have hne : n ≠ chs.name := fun he => by
              have := hPz n h1
              rw [he] at this
              omega
            rw [place_avail_other _ _ _ _ _ _ hne]
            exact hPz n h1
          · rcases List.mem_singleton.1 h1 with rfl
            exact place_avail_self _ _ _ _ _ _
        obtain ⟨new2, hout, hlen2, hnd2, hz2⟩ := ih (i + 1)
          (acc ++ [⟨chs, i, .drawn, st.avail chs.name g, st.cwl chs.name⟩]) rest
          (place role g par dur chs st) out (P ++ [chs.name]) hok (by simp [hlen])
          hpn2 hpa2 hP2 hPz2
        refine ⟨⟨chs, i, .drawn, st.avail chs.name g, st.cwl chs.name⟩ :: new2, ?_, ?_, ?_, ?_⟩
        · rw [hout]
          simp
        · simp [hlen2]
        · have : P ++ pNames (⟨chs, i, .drawn, st.avail chs.name g, st.cwl chs.name⟩ :: new2) =
              (P ++ [chs.name]) ++ pNames new2 := by
            simp [pNames]
          rw [this]
          exact hnd2
        · intro n hn
          apply hz2
          have : P ++ pNames (⟨chs, i, .drawn, st.avail chs.name g, st.cwl chs.name⟩ :: new2) =
              (P ++ [chs.name]) ++ pNames new2 := by
            simp [pNames]
          rw [this] at hn
          exact hn
    · rw [hcc] at hok
      dsimp only at hok
      rw [if_neg (by simp [hlen] : ¬ (acc ++
        [(⟨prev.get ⟨i, h⟩, i, .carry, st.avail (prev.get ⟨i, h⟩).name g,
          st.cwl (prev.get ⟨i, h⟩).name⟩ : Placed)]).length < i + 1)] at hok
      have hlsa : 0 < st.avail (prev.get ⟨i, h⟩).name g := by omega
      have hlsP : (prev.get ⟨i, h⟩).name ∉ P := fun hc => by
        have := hPz _ hc
        omega
      have hpoolnd : pool.Nodup := hpn.of_map
      have hpn2 : ((pool.erase (prev.get ⟨i, h⟩)).map Staff.name).Nodup :=
        hpn.sublist ((pool.erase_sublist (prev.get ⟨i, h⟩)).map Staff.name)
      have hpa2 : ∀ s ∈ pool.erase (prev.get ⟨i, h⟩),
          0 < (place role g par dur (prev.get ⟨i, h⟩) st).avail s.name g := by
        intro s hs
        have hsp : s ∈ pool := List.mem_of_mem_erase hs
        have hsne : s ≠ prev.get ⟨i, h⟩ := (hpoolnd.mem_erase_iff.1 hs).1
        have hne : s.name ≠ (prev.get ⟨i, h⟩).name := fun he =>
          hsne (List.inj_on_of_nodup_map hpn hsp hm he)
        rw [place_avail_other _ _ _ _ _ _ hne]
        exact hpa s hsp
      have hP2 : (P ++ [(prev.get ⟨i, h⟩).name]).Nodup := by
        rw [List.nodup_append]
        exact ⟨hP, List.nodup_singleton _, by simpa using hlsP⟩
      have hPz2 : ∀ n ∈ P ++ [(prev.get ⟨i, h⟩).name],
          (place role g par dur (prev.get ⟨i, h⟩) st).avail n g = 0 := by
        intro n hn
        rcases List.mem_append.1 hn with h1 | h1
        · have hne : n ≠ (prev.get ⟨i, h⟩).name := fun he => by
            have := hPz n h1
            rw [he] at this
            omega
          rw [place_avail_other _ _ _ _ _ _ hne]
          exact hPz n h1
        · rcases List.mem_singleton.1 h1 with rfl
          exact place_avail_self _ _ _ _ _ _
      obtain ⟨new2, hout, hlen2, hnd2, hz2⟩ := ih (i + 1)
        (acc ++ [⟨prev.get ⟨i, h⟩, i, .carry, st.avail (prev.get ⟨i, h⟩).name g,
          st.cwl (prev.get ⟨i, h⟩).name⟩]) (pool.erase (prev.get ⟨i, h⟩))
        (place role g par dur (prev.get ⟨i, h⟩) st) out (P ++ [(prev.get ⟨i, h⟩).name])
        hok (by simp [hlen]) hpn2 hpa2 hP2 hPz2
      refine ⟨⟨prev.get ⟨i, h⟩, i, .carry, st.avail (prev.get ⟨i, h⟩).name g,
        st.cwl (prev.get ⟨i, h⟩).name⟩ :: new2, ?_, ?_, ?_, ?_⟩
      · rw [hout]
        simp
      · simp [hlen2]
      · have : P ++ pNames (⟨prev.get ⟨i, h⟩, i, .carry, st.avail (prev.get ⟨i, h⟩).name g,
            st.cwl (prev.get ⟨i, h⟩).name⟩ :: new2) =
            (P ++ [(prev.get ⟨i, h⟩).name]) ++ pNames new2 := by
          simp [pNames]
        rw [this]
        exact hnd2
      · intro n hn
        apply hz2
        have : P ++ pNames (⟨prev.get ⟨i, h⟩, i, .carry, st.avail (prev.get ⟨i, h⟩).name g,
            st.cwl (prev.get ⟨i, h⟩).name⟩ :: new2) =
            (P ++ [(prev.get ⟨i, h⟩).name]) ++ pNames new2 := by
          simp [pNames]
        rw [this] at hn
        exact hn

theorem jNames_na_map (n : Nat) (i : Nat) :
    jNames ((List.range n).map fun j => (⟨.na, i + j, .unfilled, 0, 0⟩ : JPlaced)) = [] := by
  unfold jNames
  rw [List.filterMap_eq_nil_iff]
  intro a ha
  rcases List.mem_map.1 ha with ⟨j, _, rfl⟩
  rfl

theorem fillJud_spec (g : Group) (par : Option Group) (dur : Int) (prev : List JSlot) :
    ∀ (k i : Nat) (acc : List JPlaced) (pool : List Staff) (st : Sch)
      (out : List JPlaced × List Staff × Sch) (P : List String),
      fillJud g par dur prev k i acc pool st = .ok out →
      acc.length = i →
      (pool.map Staff.name).Nodup →
      (∀ s ∈ pool, 0 < st.avail s.name g) →
      P.Nodup →
      (∀ n ∈ P, st.avail n g = 0) →
      ∃ new, out.1 = acc ++ new ∧ new.length = k ∧
        (P ++ jNames new).Nodup ∧
        (∀ n ∈ P ++ jNames new, out.2.2.avail n g = 0) := by
  intro k
  induction k with
  | zero =>
    intro i acc pool st out P hok hlen hpn hpa hP hPz
    rw [fillJud] at hok
    cases hok
    exact ⟨[], by simp, rfl, by simpa [jNames] using hP, by simpa [jNames] using hPz⟩
  | succ k ih =>
    intro i acc pool st out P hok hlen hpn hpa hP hPz
    rw [fillJud] at hok
    by_cases hemp : pool = []
    · rw [if_pos hemp] at hok
      cases hok
      refine ⟨(List.range (k + 1)).map (fun j => ⟨.na, i + j, .unfilled, 0, 0⟩), rfl, by simp,
        ?_, ?_⟩
      · rw [jNames_na_map]
        simpa using hP
      · intro n hn
        rw [jNames_na_map] at hn
        simp at hn
        exact hPz n hn
    · rw [if_neg hemp] at hok
      rcases carryJud_cases g par dur prev i acc pool st with
        ⟨e, hcc⟩ | hcc | ⟨h, ls, hget, hL, hv, hw, hm, hcc⟩
      · rw [hcc] at hok
        cases hok
      · rw [hcc] at hok
        dsimp only at hok
        rw [if_pos (by omega : acc.length < i + 1)] at hok
        cases pool with
        | nil => exact absurd rfl hemp
        | cons chs rest =>
          have hchsa : 0 < st.avail chs.name g := hpa chs (List.mem_cons_self chs rest)
          have hchsP : chs.name ∉ P := fun hc => by
            have := hPz chs.name hc
            omega
          have hpn2 : (rest.map Staff.name).Nodup := (List.nodup_cons.1 hpn).2
          have hchsr : chs.name ∉ rest.map Staff.name := (List.nodup_cons.1 hpn).1
          have hpa2 : ∀ s ∈ rest, 0 < (place "j" g par dur chs st).avail s.name g := by
            intro s hs
            have hne : s.name ≠ chs.name := fun he =>
              hchsr (he ▸ List.mem_map_of_mem Staff.name hs)
            rw [place_avail_other _ _ _ _ _ _ hne]
            exact hpa s (List.mem_cons_of_mem chs hs)
          have hP2 : (P ++ [chs.name]).Nodup := by
            rw [List.nodup_append]
            exact ⟨hP, List.nodup_singleton _, by simpa using hchsP⟩
          have hPz2 : ∀ n ∈ P ++ [chs.name], (place "j" g par dur chs st).avail n g = 0 := by
            intro n hn
            rcases List.mem_append.1 hn with h1 | h1
            · have hne : n ≠ chs.name := fun he => by
                have := hPz n h1
                rw [he] at this
                omega
              rw [place_avail_other _ _ _ _ _ _ hne]
              exact hPz n h1
            · rcases List.mem_singleton.1 h1 with rfl
              exact place_avail_self _ _ _ _ _ _
          obtain ⟨new2, hout, hlen2, hnd2, hz2⟩ := ih (i + 1)
            (acc ++ [⟨.staff chs, i, .drawn, st.avail chs.name g, st.cwl chs.name⟩]) rest
            (place "j" g par dur chs st) out (P ++ [chs.name]) hok (by simp [hlen])
            hpn2 hpa2 hP2 hPz2
          refine ⟨⟨.staff chs, i, .drawn, st.avail chs.name g, st.cwl chs.name⟩ :: new2,
            ?_, ?_, ?_, ?_⟩
          · rw [hout]
            simp
          · simp [hlen2]
          · have : P ++ jNames (⟨.staff chs, i, .drawn, st.avail chs.name g,
                st.cwl chs.name⟩ :: new2) = (P ++ [chs.name]) ++ jNames new2 := by
              simp [jNames]
            rw [this]
            exact hnd2
          · intro n hn
            apply hz2
            have : P ++ jNames (⟨.staff chs, i, .drawn, st.avail chs.name g,
                st.cwl chs.name⟩ :: new2) = (P ++ [chs.name]) ++ jNames new2 := by
              simp [jNames]
            rw [this] at hn
            exact hn
      · rw [hcc] at hok
        dsimp only at hok
        rw [if_neg (by simp [hlen] : ¬ (acc ++
          [(⟨.staff ls, i, .carry, st.avail ls.name g, st.cwl ls.name⟩ : JPlaced)]).length <
            i + 1)] at hok
        have hlsP : ls.name ∉ P := fun hc => by
          have := hPz _ hc
          omega
        have hpoolnd : pool.Nodup := hpn.of_map
        have hpn2 : ((pool.erase ls).map Staff.name).Nodup :=
          hpn.sublist ((pool.erase_sublist ls).map Staff.name)
        have hpa2 : ∀ s ∈ pool.erase ls,
            0 < (place "j" g par dur ls st).avail s.name g := by
          intro s hs
          have hsp : s ∈ pool := List.mem_of_mem_erase hs
          have hsne : s ≠ ls := (hpoolnd.mem_erase_iff.1 hs).1
          have hne : s.name ≠ ls.name := fun he =>
            hsne (List.inj_on_of_nodup_map hpn hsp hm he)
          rw [place_avail_other _ _ _ _ _ _ hne]
          exact hpa s hsp
        have hP2 : (P ++ [ls.name]).Nodup := by
          rw [List.nodup_append]
          exact ⟨hP, List.nodup_singleton _, by simpa using hlsP⟩
        have hPz2 : ∀ n ∈ P ++ [ls.name], (place "j" g par dur ls st).avail n g = 0 := by
          intro n hn
          rcases List.mem_append.1 hn with h1 | h1
          · have hne : n ≠ ls.name := fun he => by
              have := hPz n h1
              rw [he] at this
              omega
            rw [place_avail_other _ _ _ _ _ _ hne]
            exact hPz n h1
          · rcases List.mem_singleton.1 h1 with rfl
            exact place_avail_self _ _ _ _ _ _
        obtain ⟨new2, hout, hlen2, hnd2, hz2⟩ := ih (i + 1)
          (acc ++ [⟨.staff ls, i, .carry, st.avail ls.name g, st.cwl ls.name⟩])
          (pool.erase ls) (place "j" g par dur ls st) out (P ++ [ls.name])
          hok (by simp [hlen]) hpn2 hpa2 hP2 hPz2
        refine ⟨⟨.staff ls, i, .carry, st.avail ls.name g, st.cwl ls.name⟩ :: new2,
          ?_, ?_, ?_, ?_⟩
        · rw [hout]
          simp
        · simp [hlen2]
        · have : P ++ jNames (⟨.staff ls, i, .carry, st.avail ls.name g,
              st.cwl ls.name⟩ :: new2) = (P ++ [ls.name]) ++ jNames new2 := by
            simp [jNames]
          rw [this]
          exact hnd2
        · intro n hn
          apply hz2
          have : P ++ jNames (⟨.staff ls, i, .carry, st.avail ls.name g,
              st.cwl ls.name⟩ :: new2) = (P ++ [ls.name]) ++ jNames new2 := by
            simp [jNames]
          rw [this] at hn
          exact hn

theorem scrStage_spec (sh : Nat → List Staff → List Staff) (staffs : List Staff)
    (hcount : Nat) (g : Group) (par : Option Group) (prev : List Staff) (seed : Nat)
    (st : Sch) (out : List Placed × Sch × Nat) (P : List String)
    (hperm : ∀ n l, List.Perm (sh n l) l)
    (hnames : (staffs.map Staff.name).Nodup)
    (hok : scrStage sh staffs hcount g par prev seed st = .ok out)
    (hP : P.Nodup) (hPz : ∀ n ∈ P, st.avail n g = 0) :
    out.1.length = hcount * scramblers_main ∧
    (P ++ pNames out.1).Nodup ∧
    (∀ n ∈ P ++ pNames out.1, out.2.1.avail n g = 0) := by
  unfold scrStage at hok
  by_cases hshort : (staffs.filter fun s => decide (0 < st.avail s.name g ∧
      (g.event ∈ s.scr2 ∨ g.event ∈ s.scr1))).length < hcount * scramblers_main
  · rw [if_pos hshort] at hok
    cases hok
  · rw [if_neg hshort] at hok
    cases hfill : fillScr g par (g.stop - g.start) prev (hcount * scramblers_main) 0 []
        (rankScr st g par (sh seed (staffs.filter fun s => decide (0 < st.avail s.name g ∧
          (g.event ∈ s.scr2 ∨ g.event ∈ s.scr1))))) st with
    | error e =>
      rw [hfill] at hok
      cases hok
    | ok r =>
      rw [hfill] at hok
      cases hok
      have hpool_perm : List.Perm (rankScr st g par (sh seed (staffs.filter fun s =>
          decide (0 < st.avail s.name g ∧ (g.event ∈ s.scr2 ∨ g.event ∈ s.scr1)))))
          (staffs.filter fun s => decide (0 < st.avail s.name g ∧
            (g.event ∈ s.scr2 ∨ g.event ∈ s.scr1))) :=
        (rankScr_perm st g par _).trans (hperm seed _)
      have hpn : ((rankScr st g par (sh seed (staffs.filter fun s =>
          decide (0 < st.avail s.name g ∧ (g.event ∈ s.scr2 ∨ g.event ∈ s.scr1))))).map
            Staff.name).Nodup :=
        (hpool_perm.map Staff.name).nodup_iff.2
          (hnames.sublist ((List.filter_sublist staffs).map Staff.name))
      have hpa : ∀ s ∈ rankScr st g par (sh seed (staffs.filter fun s =>
          decide (0 < st.avail s.name g ∧ (g.event ∈ s.scr2 ∨ g.event ∈ s.scr1)))),
          0 < st.avail s.name g := by
        intro s hs
        have h2 := List.mem_filter.1 (hpool_perm.subset hs)
        exact (of_decide_eq_true h2.2).1
      obtain ⟨new, hout, hlen, hnd, hz⟩ := fillStaffRole_spec "s"
        (fun ls => decide (g.event ∈ ls.scr2)) g par (g.stop - g.start) prev
        (hcount * scramblers_main) 0 [] _ st r P hfill rfl hpn hpa hP hPz
      simp only [List.nil_append] at hout
      exact ⟨by rw [hout]; exact hlen, by rw [hout]; exact hnd, by rw [hout]; exact hz⟩

theorem runStage_spec (sh : Nat → List Staff → List Staff) (staffs : List Staff)
    (hcount : Nat) (g : Group) (par : Option Group) (prev : List Staff) (seed : Nat)
    (st : Sch) (out : List Placed × Sch × Nat) (P : List String)
    (hperm : ∀ n l, List.Perm (sh n l) l)
    (hnames : (staffs.map Staff.name).Nodup)
    (hok : runStage sh staffs hcount g par prev seed st = .ok out)
    (hP : P.Nodup) (hPz : ∀ n ∈ P, st.avail n g = 0) :
    out.1.length = hcount * runners_main ∧
    (P ++ pNames out.1).Nodup ∧
    (∀ n ∈ P ++ pNames out.1, out.2.1.avail n g = 0) := by
  unfold runStage at hok
  by_cases hshort : (staffs.filter fun s => decide (0 < st.avail s.name g ∧
      0 < s.run)).length < hcount * runners_main
  · rw [if_pos hshort] at hok
    cases hok
  · rw [if_neg hshort] at hok
    cases hfill : fillRun g par (g.stop - g.start) prev (hcount * runners_main) 0 []
        (rankRun st g par (sh seed (staffs.filter fun s => decide (0 < st.avail s.name g ∧
          0 < s.run)))) st with
    | error e =>
      rw [hfill] at hok
      cases hok
    | ok r =>
      rw [hfill] at hok
      cases hok
      have hpool_perm : List.Perm (rankRun st g par (sh seed (staffs.filter fun s =>
          decide (0 < st.avail s.name g ∧ 0 < s.run))))
          (staffs.filter fun s => decide (0 < st.avail s.name g ∧ 0 < s.run)) :=
        (rankRun_perm st g par _).trans (hperm seed _)
      have hpn : ((rankRun st g par (sh seed (staffs.filter fun s =>
          decide (0 < st.avail s.name g ∧ 0 < s.run)))).map Staff.name).Nodup :=
        (hpool_perm.map Staff.name).nodup_iff.2
          (hnames.sublist ((List.filter_sublist staffs).map Staff.name))
      have hpa : ∀ s ∈ rankRun st g par (sh seed (staffs.filter fun s =>
          decide (0 < st.avail s.name g ∧ 0 < s.run))), 0 < st.avail s.name g := by
        intro s hs
        have h2 := List.mem_filter.1 (hpool_perm.subset hs)
        exact (of_decide_eq_true h2.2).1
      obtain ⟨new, hout, hlen, hnd, hz⟩ := fillStaffRole_spec "r"
        (fun _ => true) g par (g.stop - g.start) prev
        (hcount * runners_main) 0 [] _ st r P hfill rfl hpn hpa hP hPz
      simp only [List.nil_append] at hout
      exact ⟨by rw [hout]; exact hlen, by rw [hout]; exact hnd, by rw [hout]; exact hz⟩

theorem judStage_spec (sh : Nat → List Staff → List Staff) (staffs : List Staff)
    (hcount : Nat) (g : Group) (par : Option Group) (prevJ : List JSlot) (seed : Nat)
    (st : Sch) (out : List JPlaced × Sch × Nat) (P : List String)
    (hperm : ∀ n l, List.Perm (sh n l) l)
    (hnames : (staffs.map Staff.name).Nodup)
    (hok : judStage sh staffs hcount g par prevJ seed st = .ok out)
    (hP : P.Nodup) (hPz : ∀ n ∈ P, st.avail n g = 0) :
    (∃ q, judges_main hcount = some q ∧ out.1.length = q) ∧
    (P ++ jNames out.1).Nodup ∧
    (∀ n ∈ P ++ jNames out.1, out.2.1.avail n g = 0) := by
  unfold judStage at hok
  cases hq : judges_main hcount with
  | none =>
    rw [hq] at hok
    cases hok
  | some quota =>
    rw [hq] at hok
    dsimp only at hok
    cases hfill : fillJud g par (g.stop - g.start) prevJ quota 0 []
        (rankJud st g par (sh seed (staffs.filter fun s =>
          decide (0 < st.avail s.name g)))) st with
    | error e =>
      rw [hfill] at hok
      cases hok
    | ok r =>
      rw [hfill] at hok
      cases hok
      have hpool_perm : List.Perm (rankJud st g par (sh seed (staffs.filter fun s =>
          decide (0 < st.avail s.name g))))
          (staffs.filter fun s => decide (0 < st.avail s.name g)) :=
        (rankJud_perm st g par _).trans (hperm seed _)
      have hpn : ((rankJud st g par (sh seed (staffs.filter fun s =>
          decide (0 < st.avail s.name g)))).map Staff.name).Nodup :=
        (hpool_perm.map Staff.name).nodup_iff.2
          (hnames.sublist ((List.filter_sublist staffs).map Staff.name))
      have hpa : ∀ s ∈ rankJud st g par (sh seed (staffs.filter fun s =>
          decide (0 < st.avail s.name g))), 0 < st.avail s.name g := by
        intro s hs
        have h2 := List.mem_filter.1 (hpool_perm.subset hs)
        exact of_decide_eq_true h2.2
      obtain ⟨new, hout, hlen, hnd, hz⟩ := fillJud_spec g par (g.stop - g.start) prevJ
        quota 0 [] _ st r P hfill rfl hpn hpa hP hPz
      simp only [List.nil_append] at hout
      exact ⟨⟨quota, rfl, by rw [hout]; exact hlen⟩, by rw [hout]; exact hnd,
        by rw [hout]; exact hz⟩

theorem dayReset_assign (g : Group) (est : EngSt) :
    (dayReset g est).assign = est.assign := by
  unfold dayReset
  cases est.lastg with
  | none => rfl
  | some lg =>
    dsimp only
    by_cases hd : g.day ≠ lg.day
    · rw [if_pos hd]
    · rw [if_neg hd]

theorem processGroup_entry (sh : Nat → List Staff → List Staff) (staffs : List Staff)
    (heats : Group → List Int) (groups : List Group) (g : Group) (est out : EngSt)
    (hperm : ∀ n l, List.Perm (sh n l) l)
    (hnames : (staffs.map Staff.name).Nodup)
    (hok : processGroup sh staffs heats groups g est = .ok out) :
    out.assign = est.assign ∨
    ∃ entry : GAssign, out.assign = est.assign ++ [entry] ∧
      entry.scr.length = (heats entry.grp).length * scramblers_main ∧
      entry.runs.length = (heats entry.grp).length * runners_main ∧
      (∃ q, judges_main (heats entry.grp).length = some q ∧ entry.jud.length = q) ∧
      (pNames entry.scr ++ pNames entry.runs ++ jNames entry.jud).Nodup := by
  unfold processGroup at hok
  by_cases hmain : g.event ∈ main_events
  · rw [if_pos hmain] at hok
    dsimp only at hok
    right
    cases hscr : scrStage sh staffs ((heats g).length) g
        (groups.find? fun hh => decide (hh.event ∈ side_events ∧ overlapTol g hh))
        (if (dayReset g est).lastg.isSome then (dayReset g est).lastScr else [])
        (dayReset g est).seed (dayReset g est).sch with
    | error e =>
      rw [hscr] at hok
      cases hok
    | ok rs =>
      rw [hscr] at hok
      dsimp only [Bind.bind, Except.bind] at hok
      cases hrun : runStage sh staffs ((heats g).length) g
          (groups.find? fun hh => decide (hh.event ∈ side_events ∧ overlapTol g hh))
          (if (dayReset g est).lastg.isSome then (dayReset g est).lastRun else [])
          rs.2.2 rs.2.1 with
      | error e =>
        rw [hrun] at hok
        cases hok
      | ok rr =>
        rw [hrun] at hok
        dsimp only [Bind.bind, Except.bind] at hok
        cases hjud : judStage sh staffs ((heats g).length) g
            (groups.find? fun hh => decide (hh.event ∈ side_events ∧ overlapTol g hh))
            (if (dayReset g est).lastg.isSome then (dayReset g est).lastJud else [])
            rr.2.2 rr.2.1 with
        | error e =>
          rw [hjud] at hok
          cases hok
        | ok rj =>
          rw [hjud] at hok
          dsimp only [Bind.bind, Except.bind] at hok
          cases hok
          have hs := scrStage_spec sh staffs ((heats g).length) g
            (groups.find? fun hh => decide (hh.event ∈ side_events ∧ overlapTol g hh))
            (if (dayReset g est).lastg.isSome then (dayReset g est).lastScr else [])
            (dayReset g est).seed (dayReset g est).sch rs [] hperm hnames hscr
            List.nodup_nil (by intro n hn; cases hn)
          have hr := runStage_spec sh staffs ((heats g).length) g
            (groups.find? fun hh => decide (hh.event ∈ side_events ∧ overlapTol g hh))
            (if (dayReset g est).lastg.isSome then (dayReset g est).lastRun else [])
            rs.2.2 rs.2.1 rr (pNames rs.1) hperm hnames hrun
            (by simpa using hs.2.1) (by intro n hn; exact hs.2.2 n (by simpa using hn))
          have hj := judStage_spec sh staffs ((heats g).length) g
            (groups.find? fun hh => decide (hh.event ∈ side_events ∧ overlapTol g hh))
            (if (dayReset g est).lastg.isSome then (dayReset g est).lastJud else [])
            rr.2.2 rr.2.1 rj (pNames rs.1 ++ pNames rr.1) hperm hnames hjud
            hr.2.1 hr.2.2
          refine ⟨⟨g, rs.1, rr.1, rj.1⟩, ?_, hs.1, hr.1, hj.1, ?_⟩
          · dsimp only
            rw [dayReset_assign]
          · exact hj.2.1
  · rw [if_neg hmain] at hok
    cases hok
    left
    rfl

theorem runMain_assign (sh : Nat → List Staff → List Staff) (staffs : List Staff)
    (heats : Group → List Int) (groups : List Group)
    (hperm : ∀ n l, List.Perm (sh n l) l)
    (hnames : (staffs.map Staff.name).Nodup) :
    ∀ (gs : List Group) (est out : EngSt),
      runMain sh staffs heats groups gs est = .ok out →
      (∀ e ∈ est.assign,
        e.scr.length = (heats e.grp).length * scramblers_main ∧
        e.runs.length = (heats e.grp).length * runners_main ∧
        (∃ q, judges_main (heats e.grp).length = some q ∧ e.jud.length = q) ∧
        (pNames e.scr ++ pNames e.runs ++ jNames e.jud).Nodup) →
      ∀ e ∈ out.assign,
        e.scr.length = (heats e.grp).length * scramblers_main ∧
        e.runs.length = (heats e.grp).length * runners_main ∧
        (∃ q, judges_main (heats e.grp).length = some q ∧ e.jud.length = q) ∧
        (pNames e.scr ++ pNames e.runs ++ jNames e.jud).Nodup := by
  intro gs
  induction gs with
  | nil =>
    intro est out hok hacc
    rw [runMain] at hok
    cases hok
    exact hacc
  | cons g gs ih =>
    intro est out hok hacc
    rw [runMain] at hok
    cases hpg : processGroup sh staffs heats groups g est with
    | error e =>
      rw [hpg] at hok
      cases hok
    | ok est2 =>
      rw [hpg] at hok
      dsimp only [Bind.bind, Except.bind] at hok
      rcases processGroup_entry sh staffs heats groups g est est2 hperm hnames hpg with
        hsame | ⟨entry, heq, h1, h2, h3, h4⟩
      · exact ih est2 out hok (by rw [hsame]; exact hacc)
      · exact ih est2 out hok
          (by rw [heq]; exact forall_mem_append_single hacc ⟨h1, h2, h3, h4⟩)

/-- C5 (confirmed): whenever the main loop completes without aborting,
every recorded main-event group has exactly `heats*3` scramblers,
`heats*3` runners, and a judge list of exactly the quota-table value for
its heat count (staff members or `"NA"` placeholders), and the staff
names across the group's three role lists are pairwise distinct.
Hypotheses: the shuffle oracle permutes, and the roster's names are
distinct (the program keys all its state by staff name). -/
theorem c5_completed_run_quotas (sh : Nat → List Staff → List Staff)
    (staffs : List Staff) (heats : Group → List Int) (groups gs : List Group)
    (A : String → Group → Int) (schm : String → List (String × Group)) (out : EngSt)
    (hperm : ∀ n l, List.Perm (sh n l) l)
    (hnames : (staffs.map Staff.name).Nodup)
    (hok : runMain sh staffs heats groups gs (engInit A schm) = .ok out) :
    ∀ e ∈ out.assign,
      e.scr.length = (heats e.grp).length * scramblers_main ∧
      e.runs.length = (heats e.grp).length * runners_main ∧
      (∃ q, judges_main (heats e.grp).length = some q ∧ e.jud.length = q) ∧
      (pNames e.scr ++ pNames e.runs ++ jNames e.jud).Nodup :=
  runMain_assign sh staffs heats groups hperm hnames gs (engInit A schm) out hok
    (by intro e he; cases he)

/-- Witness for C5: a completed one-group run with six staff — three
scramblers, three runners, and a judge list of ten `"NA"` placeholders. -/
theorem c5_completed_run_quotas_witness :
    wEntry.scr.length = (wHeats wEntry.grp).length * scramblers_main ∧
    wEntry.runs.length = (wHeats wEntry.grp).length * runners_main ∧
    (∃ q, judges_main (wHeats wEntry.grp).length = some q ∧ wEntry.jud.length = q) ∧
    (pNames wEntry.scr ++ pNames wEntry.runs ++ jNames wEntry.jud).Nodup :=
  c5_completed_run_quotas (fun _ l => l) wStaffs wHeats [gmC] [gmC]
    (fun _ _ => 2) (fun _ => []) wOut (fun _ _ => List.Perm.refl _) (by decide)
    (by rfl) wEntry (by decide)

end StaffCalc
